import Mathlib

/-!
Verification of the clinical-note preprocessing pipeline (src/preprocessing.py).

The pipeline is embedded shallowly over `List Char`.  Each Python `re.sub` /
`finditer` call is modelled by a fueled left-to-right scanner (`gsub`) driven
by a matcher that mirrors the concrete regular expression's greedy semantics
at one start position; on a failed match the scanner advances one character,
on a successful match it emits the replacement and resumes after the match,
exactly like CPython's `re` module for these patterns (none of which can
match the empty string).  Character classes follow Python's ASCII semantics
(`\s`, `\d`, `[A-Z]`, `str.strip`, `str.title`), which is faithful for the
ASCII inputs the pipeline processes.
-/

namespace Preproc

/-- Python `\s` over ASCII: space, tab, newline, carriage return, vertical tab,
form feed. -/
def isWS (c : Char) : Bool :=
  c = ' ' || c = '\t' || c = '\n' || c = '\r' || c = Char.ofNat 11 || c = Char.ofNat 12

def isUpperA (c : Char) : Bool := 'A' ≤ c && c ≤ 'Z'

def isLowerA (c : Char) : Bool := 'a' ≤ c && c ≤ 'z'

def isAlphaA (c : Char) : Bool := isUpperA c || isLowerA c

def isDigitA (c : Char) : Bool := '0' ≤ c && c ≤ '9'

/-- Regex word character `\w` (ASCII). -/
def isWordA (c : Char) : Bool := isAlphaA c || isDigitA c || c = '_'

def toUpperA (c : Char) : Char := if isLowerA c then Char.ofNat (c.toNat - 32) else c

def toLowerA (c : Char) : Char := if isUpperA c then Char.ofNat (c.toNat + 32) else c

/-- Python `str.strip()`: remove leading and trailing whitespace. -/
def pyStrip (l : List Char) : List Char :=
  ((l.dropWhile isWS).reverse.dropWhile isWS).reverse

/-- Python `str.title()` (ASCII): a letter is uppercased when the previous
character is not a letter, lowercased otherwise. -/
def pyTitleGo : Bool → List Char → List Char
  | _, [] => []
  | prev, c :: l =>
    (if isAlphaA c then (if prev then toLowerA c else toUpperA c) else c)
      :: pyTitleGo (isAlphaA c) l

def pyTitle (l : List Char) : List Char := pyTitleGo false l

/-- A matcher receives the character preceding the current position (for
lookbehind / word-boundary tests) and the remaining input; it returns the
consumed match together with the rest of the input, or `none`. -/
abbrev Matcher := Option Char → List Char → Option (List Char × List Char)

def lastOr (con : List Char) (p : Option Char) : Option Char :=
  match con.getLast? with
  | some d => some d
  | none => p

/-- Fueled scanner implementing Python `re.sub` for a non-empty-match
pattern: leftmost scan, replacement computed from the match, resume after
the match. -/
def gsub (m : Matcher) (rf : List Char → List Char) : Nat → Option Char → List Char → List Char
  | 0, _, l => l
  | _ + 1, _, [] => []
  | f + 1, p, c :: l =>
    match m p (c :: l) with
    | some (con, rest) => rf con ++ gsub m rf f (lastOr con p) rest
    | none => c :: gsub m rf f (some c) l

def runSub (m : Matcher) (rf : List Char → List Char) (l : List Char) : List Char :=
  gsub m rf l.length none l

/-! ### Textual cleanup stage (preprocess_patient_notes lines 128-132) -/

/-- Matcher for `\s*-\s*`: maximal whitespace, a hyphen, maximal whitespace. -/
def m_hyph : Matcher := fun _ l =>
  match l.dropWhile isWS with
  | '-' :: r => some (l.takeWhile isWS ++ '-' :: r.takeWhile isWS, r.dropWhile isWS)
  | _ => none

/-- `re.sub(r'\s*-\s*', ' - ', s)` -/
def hyphSub (l : List Char) : List Char := runSub m_hyph (fun _ => (" - ").toList) l

/-- Matcher for `,,+`: two commas then maximal further commas. -/
def m_comma : Matcher := fun _ l =>
  match l with
  | ',' :: ',' :: r =>
    some (',' :: ',' :: r.takeWhile (fun c => c = ','), r.dropWhile (fun c => c = ','))
  | _ => none

/-- `re.sub(r',,+', ',', s)` -/
def commaSub (l : List Char) : List Char := runSub m_comma (fun _ => [',']) l

/-- Matcher for `\s{2,}`: two whitespace characters then maximal further
whitespace. -/
def m_ws2 : Matcher := fun _ l =>
  match l with
  | a :: b :: r =>
    if isWS a && isWS b then some (a :: b :: r.takeWhile isWS, r.dropWhile isWS) else none
  | _ => none

/-- `re.sub(r'\s{2,}', ' ', s)` -/
def wsSub (l : List Char) : List Char := runSub m_ws2 (fun _ => [' ']) l

def isPunct3 (c : Char) : Bool := c = ',' || c = '.' || c = ';'

/-- Matcher for `(\s*[,.;])`: maximal whitespace then one of `, . ;`.
The source replaces this match with `\1`, the capture of the whole match. -/
def m_punct : Matcher := fun _ l =>
  match l.dropWhile isWS with
  | c :: r => if isPunct3 c then some (l.takeWhile isWS ++ [c], r) else none
  | [] => none

/-- `re.sub(r'(\s*[,.;])', r'\1', s)`: the capture group spans the whole
pattern, so each match is replaced by itself. -/
def punctSub (l : List Char) : List Char := runSub m_punct (fun con => con) l

/-- The cleanup stage of `preprocess_patient_notes` (lines 128-132). -/
def cleanupStage (l : List Char) : List Char :=
  pyStrip (punctSub (wsSub (commaSub (hyphSub l))))

/-! ### generalize_sensitive_info -/

/-- Literal prefix: consume `w` if the input starts with it. -/
def litP (w : List Char) (l : List Char) : Option (List Char) :=
  if w.isPrefixOf l then some (l.drop w.length) else none

/-- `\s+`: at least one whitespace character, maximal. -/
def wsPlus (l : List Char) : Option (List Char × List Char) :=
  match l.takeWhile isWS with
  | [] => none
  | w => some (w, l.dropWhile isWS)

/-- `[A-Z][a-zA-Z\s]+`: one uppercase letter then a maximal nonempty run of
letters and whitespace. -/
def capTail (l : List Char) : Option (List Char × List Char) :=
  match l with
  | c :: r =>
    if isUpperA c then
      match r.takeWhile (fun d => isAlphaA d || isWS d) with
      | [] => none
      | b => some (c :: b, r.dropWhile (fun d => isAlphaA d || isWS d))
    else none
  | [] => none

/-- `[A-Z][a-z]+`: one uppercase letter then a maximal nonempty run of
lowercase letters. -/
def capWord (l : List Char) : Option (List Char × List Char) :=
  match l with
  | c :: r =>
    if isUpperA c then
      match r.takeWhile isLowerA with
      | [] => none
      | b => some (c :: b, r.dropWhile isLowerA)
    else none
  | [] => none

/-- Matcher for `Dr\.\s+[A-Z][a-zA-Z\s]+`. -/
def m_dr : Matcher := fun _ l =>
  match litP ("Dr.").toList l with
  | none => none
  | some r =>
    match wsPlus r with
    | none => none
    | some (w, r1) =>
      match capTail r1 with
      | none => none
      | some (n, rest) => some (("Dr.").toList ++ w ++ n, rest)

/-- Matcher for `Seen by Dr\.\s+[A-Z][a-zA-Z\s]+`. -/
def m_seen : Matcher := fun _ l =>
  match litP ("Seen by Dr.").toList l with
  | none => none
  | some r =>
    match wsPlus r with
    | none => none
    | some (w, r1) =>
      match capTail r1 with
      | none => none
      | some (n, rest) => some (("Seen by Dr.").toList ++ w ++ n, rest)

/-- Matcher for `Visited Physician:\s+[A-Z][a-zA-Z\s]+`. -/
def m_visit : Matcher := fun _ l =>
  match litP ("Visited Physician:").toList l with
  | none => none
  | some r =>
    match wsPlus r with
    | none => none
    | some (w, r1) =>
      match capTail r1 with
      | none => none
      | some (n, rest) => some (("Visited Physician:").toList ++ w ++ n, rest)

/-- Matcher for `Patient\s+[A-Z][a-z]+(?:\s+[A-Z][a-z]+)?`. -/
def m_pat1 : Matcher := fun _ l =>
  match litP ("Patient").toList l with
  | none => none
  | some r =>
    match wsPlus r with
    | none => none
    | some (w, r1) =>
      match capWord r1 with
      | none => none
      | some (n1, r2) =>
        match wsPlus r2 with
        | some (w2, r3) =>
          match capWord r3 with
          | some (n2, r4) => some (("Patient").toList ++ w ++ n1 ++ w2 ++ n2, r4)
          | none => some (("Patient").toList ++ w ++ n1, r2)
        | none => some (("Patient").toList ++ w ++ n1, r2)

/-- Word-boundary test for the position before the match. -/
def bdryBefore (p : Option Char) : Bool :=
  match p with
  | none => true
  | some d => !isWordA d

/-- Matcher for
`(\b[A-Z][a-z]+\s+[A-Z][a-z]+\b)(?=\s+\(DOB:|\s+was seen by|\s+has a history)`.
The lookahead consumes nothing. -/
def m_pat2 : Matcher := fun p l =>
  if bdryBefore p then
    match capWord l with
    | none => none
    | some (n1, r1) =>
      match wsPlus r1 with
      | none => none
      | some (w, r2) =>
        match capWord r2 with
        | none => none
        | some (n2, r3) =>
          if (match r3.head? with | none => true | some d => !isWordA d) then
            match wsPlus r3 with
            | some (_, r4) =>
              if ("(DOB:").toList.isPrefixOf r4 || ("was seen by").toList.isPrefixOf r4
                  || ("has a history").toList.isPrefixOf r4 then
                some (n1 ++ w ++ n2, r3)
              else none
            | none => none
          else none
  else none

/-- `\d{n}`: exactly n digits. -/
def digitsN : Nat → List Char → Option (List Char × List Char)
  | 0, l => some ([], l)
  | _ + 1, [] => none
  | n + 1, c :: l =>
    if isDigitA c then
      match digitsN n l with
      | some (d, r) => some (c :: d, r)
      | none => none
    else none

/-- `\d{1,2}/` with greedy backtracking: two digits then a slash, else one
digit then a slash. -/
def d12slash : List Char → Option (List Char × List Char)
  | a :: b :: c :: r =>
    if isDigitA a && isDigitA b && c = '/' then some ([a, b, c], r)
    else if isDigitA a && b = '/' then some ([a, b], c :: r)
    else none
  | [a, b] => if isDigitA a && b = '/' then some ([a, b], []) else none
  | _ => none

/-- `\d{1,2}/\d{1,2}/\d{4}` -/
def dateTail (l : List Char) : Option (List Char × List Char) :=
  match d12slash l with
  | none => none
  | some (a, r1) =>
    match d12slash r1 with
    | none => none
    | some (b, r2) =>
      match digitsN 4 r2 with
      | none => none
      | some (y, r3) => some (a ++ b ++ y, r3)

/-- Matcher for `DOB:\s+\d{4}-\d{2}-\d{2}`. -/
def m_dob : Matcher := fun _ l =>
  match litP ("DOB:").toList l with
  | none => none
  | some r =>
    match wsPlus r with
    | none => none
    | some (w, r1) =>
      match digitsN 4 r1 with
      | none => none
      | some (y, r2) =>
        match r2 with
        | '-' :: r3 =>
          match digitsN 2 r3 with
          | none => none
          | some (mo, r4) =>
            match r4 with
            | '-' :: r5 =>
              match digitsN 2 r5 with
              | none => none
              | some (d, r6) =>
                some (("DOB:").toList ++ w ++ y ++ '-' :: mo ++ '-' :: d, r6)
            | _ => none
        | _ => none

/-- Matcher for `Date:\s+\d{1,2}/\d{1,2}/\d{4}`. -/
def m_date : Matcher := fun _ l =>
  match litP ("Date:").toList l with
  | none => none
  | some r =>
    match wsPlus r with
    | none => none
    | some (w, r1) =>
      match dateTail r1 with
      | none => none
      | some (d, rest) => some (("Date:").toList ++ w ++ d, rest)

/-- Matcher for `on\s+\d{1,2}/\d{1,2}/\d{4}`. -/
def m_on : Matcher := fun _ l =>
  match litP ("on").toList l with
  | none => none
  | some r =>
    match wsPlus r with
    | none => none
    | some (w, r1) =>
      match dateTail r1 with
      | none => none
      | some (d, rest) => some (("on").toList ++ w ++ d, rest)

/-- Line 48: `re.sub(r'(Dr\.\s+[A-Z][a-zA-Z\s]+)', r'Dr. [DOCTOR_NAME]', text)` -/
def drSub (l : List Char) : List Char :=
  runSub m_dr (fun _ => ("Dr. [DOCTOR_NAME]").toList) l

/-- Line 49 -/
def seenSub (l : List Char) : List Char :=
  runSub m_seen (fun _ => ("Seen by Dr. [DOCTOR_NAME]").toList) l

/-- Line 50 -/
def visitSub (l : List Char) : List Char :=
  runSub m_visit (fun _ => ("Visited Physician: [DOCTOR_NAME]").toList) l

/-- Line 53 -/
def pat1Sub (l : List Char) : List Char :=
  runSub m_pat1 (fun _ => ("Patient [PATIENT_NAME]").toList) l

/-- Line 54 -/
def pat2Sub (l : List Char) : List Char :=
  runSub m_pat2 (fun _ => ("[PATIENT_NAME]").toList) l

/-- Line 57 -/
def dobSub (l : List Char) : List Char :=
  runSub m_dob (fun _ => ("DOB: [DATE_OF_BIRTH]").toList) l

/-- Line 60 -/
def dateSub (l : List Char) : List Char :=
  runSub m_date (fun _ => ("Date: [DATE]").toList) l

/-- Line 61 -/
def onSub (l : List Char) : List Char :=
  runSub m_on (fun _ => ("on [DATE]").toList) l

/-- `generalize_sensitive_info`, lines 47-63: the seven substitutions in
source order. -/
def genList (l : List Char) : List Char :=
  onSub (dateSub (dobSub (pat2Sub (pat1Sub (visitSub (seenSub (drSub l)))))))

/-! ### _split_into_sentences and deduplicate_notes -/

def isTerm (p : Option Char) : Bool :=
  match p with
  | some '.' => true
  | some '!' => true
  | some '?' => true
  | _ => false

/-- Scanner for `re.split(r'(?<=[.!?])\s+', text)`: a maximal whitespace run
whose preceding character is `.`, `!` or `?` separates two segments and is
discarded. -/
def splitGo : Nat → Option Char → List Char → List Char → List (List Char)
  | _, _, acc, [] => [acc.reverse]
  | 0, _, acc, l => [acc.reverse ++ l]
  | f + 1, p, acc, c :: l =>
    if isWS c && isTerm p then
      acc.reverse ::
        splitGo f (some ((l.takeWhile isWS).getLastD c)) [] (l.dropWhile isWS)
    else
      splitGo f (some c) (c :: acc) l

/-- `_split_into_sentences`, lines 11-18: split, strip each piece, drop the
empty ones. -/
def splitSentences (l : List Char) : List (List Char) :=
  ((splitGo l.length none [] l).map pyStrip).filter (fun s => s ≠ [])

/-- One step of the dedup accumulator (lines 33-36): strip, then append when
non-empty and not yet present. -/
def insNew (acc : List (List Char)) (s : List Char) : List (List Char) :=
  let t := pyStrip s
  if t ≠ [] ∧ t ∉ acc then acc ++ [t] else acc

/-- The insertion-ordered keys of `unique_sentences_ordered`. -/
def dedupKeys (notes : List (List Char)) : List (List Char) :=
  notes.foldl (fun acc note => (splitSentences note).foldl insNew acc) []

/-- `deduplicate_notes`, lines 20-40. -/
def dedupList (notes : List (List Char)) : List Char :=
  List.intercalate ['\n'] (dedupKeys notes)

/-! ### extract_and_combine_lab_results -/

/-- The alternatives of the lab pattern (line 79), in source order. -/
def labNames : List (List Char) :=
  [("blood count").toList, ("hemoglobin").toList, ("glucose").toList,
   ("creatinine").toList, ("cholesterol").toList, ("sodium").toList,
   ("potassium").toList, ("wbc").toList, ("rbc").toList, ("platelets").toList,
   ("hba1c").toList, ("tsh").toList, ("hematocrit").toList,
   ("white blood cell count").toList]

/-- Case-insensitive literal prefix test (the pattern is compiled with
`(?i)`). -/
def ciPref (w : List Char) (l : List Char) : Bool :=
  (l.take w.length).map toLowerA = w

/-- Match of
`(?i)(blood count|...|white blood cell count)\s*:\s*(\d+\.?\d*)` at the start
of `l`: returns (whole match, group 1, group 2, rest).  `\d+` is greedy, the
optional `\.` is taken when present, then `\d*` is greedy; nothing follows,
so no backtracking occurs. -/
def labMatchAt (l : List Char) : Option (List Char × List Char × List Char × List Char) :=
  match labNames.find? (fun w => ciPref w l) with
  | none => none
  | some w =>
    let name := l.take w.length
    let r0 := l.drop w.length
    let w1 := r0.takeWhile isWS
    match r0.dropWhile isWS with
    | ':' :: r2 =>
      let w2 := r2.takeWhile isWS
      let r3 := r2.dropWhile isWS
      match r3.takeWhile isDigitA with
      | [] => none
      | d1 =>
        match r3.dropWhile isDigitA with
        | '.' :: r5 =>
          let d2 := r5.takeWhile isDigitA
          let v := d1 ++ '.' :: d2
          some (name ++ w1 ++ ':' :: w2 ++ v, name, v, r5.dropWhile isDigitA)
        | r4 => some (name ++ w1 ++ ':' :: w2 ++ d1, name, d1, r4)
    | _ => none

/-- `lab_result_pattern.finditer(note)`: the (group 1, group 2) pairs of the
non-overlapping matches in left-to-right order. -/
def labFindGo : Nat → List Char → List (List Char × List Char)
  | 0, _ => []
  | _ + 1, [] => []
  | f + 1, c :: l =>
    match labMatchAt (c :: l) with
    | some (_, n, v, rest) => (n, v) :: labFindGo f rest
    | none => labFindGo f l

def labFind (l : List Char) : List (List Char × List Char) := labFindGo l.length l

/-- Lines 86-88: insertion-ordered table update, appending the value to an
existing test's list or adding a new key at the end. -/
def tableAdd (t : List (List Char × List (List Char))) (k v : List Char) :
    List (List Char × List (List Char)) :=
  if t.any (fun e => e.1 = k) then
    t.map (fun e => if e.1 = k then (e.1, e.2 ++ [v]) else e)
  else t ++ [(k, [v])]

/-- `combined_lab_results` after the scan loop (lines 81-88); group 1 is
stripped and title-cased, group 2 stripped. -/
def extractTable (notes : List (List Char)) : List (List Char × List (List Char)) :=
  notes.foldl
    (fun t note =>
      (labFind note).foldl (fun t2 m => tableAdd t2 (pyTitle (pyStrip m.1)) (pyStrip m.2)) t)
    []

/-- Line 92: `f"{lab_name}: {', '.join(values)}"`. -/
def formatEntry (e : List Char × List (List Char)) : List Char :=
  e.1 ++ (": ").toList ++ List.intercalate (", ").toList e.2

/-- `extract_and_combine_lab_results`, lines 66-100.  The compiled pattern
returned in the non-empty case is a fixed constant, modelled by `some ()`. -/
def extractLab (notes : List (List Char)) :
    List Char × List (List Char × List (List Char)) × Option Unit :=
  let t := extractTable notes
  let fr := t.map formatEntry
  if fr ≠ [] then
    (("Lab Results: ").toList ++ List.intercalate ("; ").toList fr, t, some ())
  else ([], [], none)

/-- `lab_result_pattern.sub("", s)` (line 122), reusing the same matcher as
the extraction scan. -/
def labStrip (l : List Char) : List Char :=
  runSub
    (fun _ s =>
      match labMatchAt s with
      | some (con, _, _, rest) => some (con, rest)
      | none => none)
    (fun _ => []) l

/-! ### preprocess_patient_notes -/

/-- Matcher for `\n\s*\n` (line 123): a newline, then greedy `\s*` forced to
backtrack to the last newline of the following whitespace run. -/
def m_blank : Matcher := fun _ l =>
  match l with
  | '\n' :: r =>
    let w := r.takeWhile isWS
    if w.contains '\n' then
      let tailNo := (w.reverse.takeWhile (fun c => c ≠ '\n')).length
      let keep := w.length - tailNo
      some ('\n' :: w.take keep, w.drop keep ++ r.drop w.length)
    else none
  | _ => none

/-- `re.sub(r'\n\s*\n', '\n\n', s)` -/
def blankSub (l : List Char) : List Char :=
  runSub m_blank (fun _ => ['\n', '\n']) l

/-- `preprocess_patient_notes` up to line 132: the cleaned narrative together
with the lab-summary string (before the final append). -/
def preprocessCore (notes : List (List Char)) : List Char × List Char :=
  let gen := notes.map genList
  let ded := dedupList gen
  let ex := extractLab gen
  let sd :=
    match ex.2.2 with
    | some _ => pyStrip (blankSub (labStrip ded))
    | none => ded
  (cleanupStage sd, ex.1)

/-- The narrative portion of the final document: `shortened_document` after
line 132, before the lab summary is appended. -/
def preprocessNarr (notes : List (List Char)) : List Char :=
  (preprocessCore notes).1

/-- `preprocess_patient_notes`, lines 103-142. -/
def preprocessList (notes : List (List Char)) : List Char :=
  let r := preprocessCore notes
  if r.2 ≠ [] then
    (if r.1 ≠ [] then r.1 ++ ('\n' :: '\n' :: r.2) else r.2)
  else r.1

/-! ### String wrappers with the source's names -/

def generalize_sensitive_info (s : String) : String := ⟨genList s.data⟩

def deduplicate_notes (notes : List String) : String := ⟨dedupList (notes.map String.data)⟩

def extract_and_combine_lab_results (notes : List String) :
    String × List (String × List String) × Option Unit :=
  let r := extractLab (notes.map String.data)
  (⟨r.1⟩, r.2.1.map (fun e => (⟨e.1⟩, e.2.map (fun v => ⟨v⟩))), r.2.2)

def preprocess_patient_notes (notes : List String) : String :=
  ⟨preprocessList (notes.map String.data)⟩

/-! ### Auxiliary specification-side definitions -/

/-- `pat` occurs as a contiguous substring of `l`. -/
def hasSub (pat l : List Char) : Bool := l.tails.any (fun t => pat.isPrefixOf t)

/-- A matcher consumes a non-empty prefix of its input. -/
def Consumes (m : Matcher) : Prop :=
  ∀ p l con rest, m p l = some (con, rest) → con ≠ [] ∧ l = con ++ rest

/-- A matcher that ignores the preceding-character argument. -/
def PrevFree (m : Matcher) : Prop := ∀ p q l, m p l = m q l

/-- The cleanup core: the first three cleanup substitutions (the fourth is a
no-op, proved below). -/
def cleanCore (l : List Char) : List Char := wsSub (commaSub (hyphSub l))

/-- Allowed adjacent pairs in a cleaned string: no two whitespace characters,
no two commas, and a hyphen only with a space on its inner sides. -/
def okPair (a b : Char) : Bool :=
  !(isWS a && isWS b) && !(a = ',' && b = ',') && !(a = '-' && b ≠ ' ')
    && !(b = '-' && a ≠ ' ')

/-- Hyphen side conditions alone (established by the hyphen substitution). -/
def hpPair (a b : Char) : Bool :=
  !(a = '-' && b ≠ ' ') && !(b = '-' && a ≠ ' ')

/-- Hyphen plus comma conditions (established after the comma substitution). -/
def hpcPair (a b : Char) : Bool :=
  hpPair a b && !(a = ',' && b = ',')

/-- Canonical (cleanup-stable up to edge padding) strings. -/
def Canon (l : List Char) : Prop := List.Chain' (fun a b => okPair a b = true) l

/-- Pad a single space in front when the string starts with a hyphen. -/
def padF (l : List Char) : List Char := if l.head? = some '-' then ' ' :: l else l

/-- Pad a single space at the end when the string ends with a hyphen. -/
def padB (l : List Char) : List Char := if l.getLast? = some '-' then l ++ [' '] else l

/-- k copies of the hyphen replacement " - ". -/
def rp : Nat → List Char
  | 0 => []
  | k + 1 => ' ' :: '-' :: ' ' :: rp k

/-- Canonical single-spaced hyphen chain "- - ... - " with k hyphens,
starting with a hyphen and ending with a space. -/
def cbl : Nat → List Char
  | 0 => []
  | k + 1 => '-' :: ' ' :: cbl k

/-- Canonical single-spaced hyphen chain "- - ... -" with k hyphens, starting
and ending with a hyphen. -/
def cblE : Nat → List Char
  | 0 => []
  | 1 => ['-']
  | k + 2 => '-' :: ' ' :: cblE (k + 1)

/-- The subsequence of first occurrences: each element is listed at its first
position, later repeats are dropped. -/
def firstOccs : List (List Char) → List (List Char)
  | [] => []
  | x :: l => x :: firstOccs (l.filter (fun y => y ≠ x))
termination_by l => l.length
decreasing_by simp only [List.length_cons]; exact Nat.lt_succ_of_le (List.length_filter_le _ _)

/-- The stream of stripped, non-empty sentences of the notes in scan order. -/
def sentStream (notes : List (List Char)) : List (List Char) :=
  (notes.map (fun n => ((splitSentences n).map pyStrip).filter (fun t => t ≠ []))).flatten

/-- Insert-if-new, the accumulator step of `deduplicate_notes` after
stripping and the emptiness test. -/
def ins0 (acc : List (List Char)) (t : List Char) : List (List Char) :=
  if t ∈ acc then acc else acc ++ [t]

/-! ## Generic scanner lemmas -/

theorem gsub_prevfree {m : Matcher} {rf : List Char → List Char} (hm : PrevFree m) :
    ∀ (f : Nat) (p q : Option Char) (l : List Char), gsub m rf f p l = gsub m rf f q l := by
  intro f
  induction f with
  | zero => intro p q l; rfl
  | succ f ih =>
    intro p q l
    cases l with
    | nil => rfl
    | cons c t =>
      rw [gsub, gsub, hm p q (c :: t)]
      cases h : m q (c :: t) with
      | none => simp only [h]
      | some pr =>
        obtain ⟨con, rest⟩ := pr
        simp only [h]
        exact congrArg (fun x => rf con ++ x) (ih (lastOr con p) (lastOr con q) rest)

theorem gsub_fuel {m : Matcher} {rf : List Char → List Char} (hm : Consumes m) :
    ∀ (f₁ : Nat) (f₂ : Nat) (p : Option Char) (l : List Char),
      l.length ≤ f₁ → l.length ≤ f₂ → gsub m rf f₁ p l = gsub m rf f₂ p l := by
  intro f₁
  induction f₁ with
  | zero =>
    intro f₂ p l h1 _
    have : l = [] := List.length_eq_zero.mp (Nat.le_zero.mp h1)
    subst this
    cases f₂ <;> rfl
  | succ f ih =>
    intro f₂ p l h1 h2
    cases l with
    | nil => cases f₂ <;> rfl
    | cons c t =>
      cases f₂ with
      | zero => exact absurd h2 (by simp)
      | succ f₂ =>
        rw [gsub, gsub]
        cases h : m p (c :: t) with
        | none =>
          rw [ih f₂ (some c) t (Nat.succ_le_succ_iff.mp (by simpa using h1))
            (Nat.succ_le_succ_iff.mp (by simpa using h2))]
        | some pr =>
          obtain ⟨con, rest⟩ := pr
          obtain ⟨hne, heq⟩ := hm p (c :: t) con rest h
          have hlen : rest.length + 1 ≤ (c :: t).length := by
            rw [heq, List.length_append]
            have : 1 ≤ con.length := by
              cases hc : con with
              | nil => exact absurd hc hne
              | cons a b => simp
            omega
          show rf con ++ gsub m rf f (lastOr con p) rest =
            rf con ++ gsub m rf f₂ (lastOr con p) rest
          rw [ih f₂ (lastOr con p) rest (by simp at h1 hlen; omega) (by simp at h2 hlen; omega)]

theorem runSub_nomatch {m : Matcher} {rf : List Char → List Char} (hp : PrevFree m)
    (c : Char) (l : List Char) (h : m none (c :: l) = none) :
    runSub m rf (c :: l) = c :: runSub m rf l := by
  unfold runSub
  rw [List.length_cons, gsub, h, gsub_prevfree hp _ (some c) none]

theorem runSub_match {m : Matcher} {rf : List Char → List Char} (hm : Consumes m)
    (hp : PrevFree m) (c : Char) (l con rest : List Char)
    (h : m none (c :: l) = some (con, rest)) :
    runSub m rf (c :: l) = rf con ++ runSub m rf rest := by
  unfold runSub
  rw [List.length_cons, gsub, h]
  obtain ⟨hne, heq⟩ := hm none (c :: l) con rest h
  have hlen : rest.length + 1 ≤ (c :: l).length := by
    rw [heq, List.length_append]
    have : 1 ≤ con.length := by
      cases hc : con with
      | nil => exact absurd hc hne
      | cons a b => simp
    omega
  show rf con ++ gsub m rf l.length (lastOr con none) rest = rf con ++ gsub m rf rest.length none rest
  rw [gsub_prevfree hp _ (lastOr con none) none,
    gsub_fuel hm l.length rest.length none rest (by simp at hlen ⊢; omega) le_rfl]

/-! ## Matcher properties -/

theorem prevFree_m_hyph : PrevFree m_hyph := fun _ _ _ => rfl

theorem prevFree_m_comma : PrevFree m_comma := fun _ _ _ => rfl

theorem prevFree_m_ws2 : PrevFree m_ws2 := fun _ _ _ => rfl

theorem prevFree_m_punct : PrevFree m_punct := fun _ _ _ => rfl

theorem prevFree_m_dr : PrevFree m_dr := fun _ _ _ => rfl

theorem consumes_m_comma : Consumes m_comma := by
  intro p l con rest h
  unfold m_comma at h
  split at h
  · rw [Option.some_inj] at h
    obtain ⟨h1, h2⟩ := Prod.mk.injEq .. ▸ h
    subst h1; subst h2
    refine ⟨by simp, ?_⟩
    simp [List.takeWhile_append_dropWhile]
  · exact Option.noConfusion h

theorem consumes_m_ws2 : Consumes m_ws2 := by
  intro p l con rest h
  unfold m_ws2 at h
  split at h
  · split at h
    · rw [Option.some_inj] at h
      obtain ⟨h1, h2⟩ := Prod.mk.injEq .. ▸ h
      subst h1; subst h2
      refine ⟨by simp, ?_⟩
      simp [List.takeWhile_append_dropWhile]
    · exact Option.noConfusion h
  · exact Option.noConfusion h

theorem consumes_m_hyph : Consumes m_hyph := by
  intro p l con rest h
  unfold m_hyph at h
  split at h
  case h_1 r heq =>
    simp only [Option.some_inj] at h
    obtain ⟨h1, h2⟩ := Prod.mk.injEq .. ▸ h
    subst h1; subst h2
    refine ⟨by simp, ?_⟩
    conv_lhs => rw [← List.takeWhile_append_dropWhile (p := isWS) (l := l)]
    rw [heq]
    simp [List.takeWhile_append_dropWhile]
  case h_2 => exact Option.noConfusion h

theorem consumes_m_punct : Consumes m_punct := by
  intro p l con rest h
  unfold m_punct at h
  split at h
  case h_2 => exact Option.noConfusion h
  case h_1 c r heq =>
    split at h
    · simp only [Option.some_inj] at h
      obtain ⟨h1, h2⟩ := Prod.mk.injEq .. ▸ h
      subst h1; subst h2
      refine ⟨by simp, ?_⟩
      conv_lhs => rw [← List.takeWhile_append_dropWhile (p := isWS) (l := l)]
      rw [heq]
      simp
    · exact Option.noConfusion h

theorem litP_eq {w l r : List Char} (h : litP w l = some r) : l = w ++ r := by
  unfold litP at h
  split at h
  case isTrue hpre =>
    rw [Option.some_inj] at h
    obtain ⟨t, ht⟩ := List.isPrefixOf_iff_prefix.mp hpre
    subst h
    rw [← ht, List.drop_left]
  case isFalse => exact Option.noConfusion h

theorem wsPlus_eq {l w r : List Char} (h : wsPlus l = some (w, r)) : w ≠ [] ∧ l = w ++ r := by
  unfold wsPlus at h
  cases hw : l.takeWhile isWS with
  | nil => rw [hw] at h; exact Option.noConfusion h
  | cons a t =>
    simp only [hw, Option.some_inj] at h
    obtain ⟨h1, h2⟩ := Prod.mk.injEq .. ▸ h
    subst h2
    refine ⟨h1 ▸ (by simp), ?_⟩
    rw [← h1, ← hw, List.takeWhile_append_dropWhile]

theorem capTail_eq {l n r : List Char} (h : capTail l = some (n, r)) : n ≠ [] ∧ l = n ++ r := by
  unfold capTail at h
  split at h
  case h_2 => exact Option.noConfusion h
  case h_1 c t =>
    split at h
    · cases hw : t.takeWhile (fun d => isAlphaA d || isWS d) with
      | nil => rw [hw] at h; exact Option.noConfusion h
      | cons a b =>
        simp only [hw, Option.some_inj] at h
        obtain ⟨h1, h2⟩ := Prod.mk.injEq .. ▸ h
        subst h2
        refine ⟨h1 ▸ (by simp), ?_⟩
        rw [← h1]
        have hsplit : c :: t = c :: ((a :: b) ++ t.dropWhile (fun d => isAlphaA d || isWS d)) := by
          rw [← hw, List.takeWhile_append_dropWhile]
        rw [hsplit]
        rfl
    · exact Option.noConfusion h

theorem consumes_m_dr : Consumes m_dr := by
  intro p l con rest h
  unfold m_dr at h
  cases hl : litP (("Dr.").toList) l with
  | none => rw [hl] at h; exact Option.noConfusion h
  | some r0 =>
    simp only [hl] at h
    cases hw : wsPlus r0 with
    | none => rw [hw] at h; exact Option.noConfusion h
    | some pr =>
      obtain ⟨w, r1⟩ := pr
      simp only [hw] at h
      cases hc : capTail r1 with
      | none => rw [hc] at h; exact Option.noConfusion h
      | some pr2 =>
        obtain ⟨n, r2⟩ := pr2
        simp only [hc, Option.some_inj] at h
        obtain ⟨h1, h2⟩ := Prod.mk.injEq .. ▸ h
        subst h1; subst h2
        have e1 := litP_eq hl
        obtain ⟨hwne, e2⟩ := wsPlus_eq hw
        obtain ⟨hnne, e3⟩ := capTail_eq hc
        refine ⟨by simp, ?_⟩
        rw [e1, e2, e3]
        simp [List.append_assoc]

theorem prevFree_m_visit : PrevFree m_visit := fun _ _ _ => rfl

theorem consumes_m_visit : Consumes m_visit := by
  intro p l con rest h
  unfold m_visit at h
  cases hl : litP (("Visited Physician:").toList) l with
  | none => rw [hl] at h; exact Option.noConfusion h
  | some r0 =>
    simp only [hl] at h
    cases hw : wsPlus r0 with
    | none => rw [hw] at h; exact Option.noConfusion h
    | some pr =>
      obtain ⟨w, r1⟩ := pr
      simp only [hw] at h
      cases hc : capTail r1 with
      | none => rw [hc] at h; exact Option.noConfusion h
      | some pr2 =>
        obtain ⟨n, r2⟩ := pr2
        simp only [hc, Option.some_inj] at h
        obtain ⟨h1, h2⟩ := Prod.mk.injEq .. ▸ h
        subst h1; subst h2
        have e1 := litP_eq hl
        obtain ⟨hwne, e2⟩ := wsPlus_eq hw
        obtain ⟨hnne, e3⟩ := capTail_eq hc
        refine ⟨by simp, ?_⟩
        rw [e1, e2, e3]
        simp [List.append_assoc]

/-- Replacing every match by itself is the identity: this is what the
pre-punctuation rule does, since its capture group spans the whole pattern. -/
theorem gsub_id {m : Matcher} (hm : Consumes m) :
    ∀ (f : Nat) (p : Option Char) (l : List Char),
      l.length ≤ f → gsub m (fun con => con) f p l = l := by
  intro f
  induction f with
  | zero => intro p l _; rfl
  | succ f ih =>
    intro p l hl
    cases l with
    | nil => rfl
    | cons c t =>
      rw [gsub]
      cases h : m p (c :: t) with
      | none =>
        rw [ih (some c) t (Nat.succ_le_succ_iff.mp (by simpa using hl))]
      | some pr =>
        obtain ⟨con, rest⟩ := pr
        obtain ⟨hne, heq⟩ := hm p (c :: t) con rest h
        have hlen : rest.length + 1 ≤ (c :: t).length := by
          rw [heq, List.length_append]
          have : 1 ≤ con.length := by
            cases hc : con with
            | nil => exact absurd hc hne
            | cons a b => simp
          omega
        show con ++ gsub m (fun con => con) f (lastOr con p) rest = c :: t
        rw [ih (lastOr con p) rest (by simp at hl hlen; omega), ← heq]

/-- The fourth cleanup substitution is a no-op. -/
theorem punctSub_id (l : List Char) : punctSub l = l :=
  gsub_id consumes_m_punct l.length none l le_rfl

theorem upper_not_ws {c : Char} (h : isUpperA c = true) : isWS c = false := by
  by_contra hws
  rw [Bool.not_eq_false] at hws
  unfold isWS at hws
  simp only [Bool.or_eq_true, decide_eq_true_eq] at hws
  rcases hws with ((((h1 | h1) | h1) | h1) | h1) | h1 <;>
    (subst h1; exact absurd h (by decide))

theorem takeWhile_nil_of_head {p : Char → Bool} {r : List Char}
    (h : ∀ c, r.head? = some c → p c = false) : r.takeWhile p = [] := by
  cases r with
  | nil => rfl
  | cons c t => simp [List.takeWhile_cons, h c rfl]

theorem dropWhile_self_of_head {p : Char → Bool} {r : List Char}
    (h : ∀ c, r.head? = some c → p c = false) : r.dropWhile p = r := by
  cases r with
  | nil => rfl
  | cons c t => simp [List.dropWhile_cons, h c rfl]

/-- The doctor-name match at a "Dr. " prefix: the captured name is the entire
maximal run of letters and whitespace starting at the uppercase letter. -/
theorem m_dr_step (u : Char) (w r : List Char) (h1 : isUpperA u = true) (h2 : w ≠ [])
    (h3 : ∀ c ∈ w, (isAlphaA c || isWS c) = true)
    (h4 : ∀ c, r.head? = some c → (isAlphaA c || isWS c) = false) :
    m_dr none (("Dr. ").toList ++ u :: w ++ r) = some (("Dr. ").toList ++ u :: w, r) := by
  obtain ⟨a, w', rfl⟩ := List.exists_cons_of_ne_nil h2
  have hu : isWS u = false := upper_not_ws h1
  have htw : ((a :: w') ++ r).takeWhile (fun d => isAlphaA d || isWS d) = a :: w' := by
    rw [List.takeWhile_append_of_pos h3, takeWhile_nil_of_head h4, List.append_nil]
  have hdw : ((a :: w') ++ r).dropWhile (fun d => isAlphaA d || isWS d) = r := by
    rw [List.dropWhile_append_of_pos h3, dropWhile_self_of_head h4]
  show m_dr none ('D' :: 'r' :: '.' :: ' ' :: u :: ((a :: w') ++ r)) = _
  unfold m_dr
  have hlit : litP (("Dr.").toList) ('D' :: 'r' :: '.' :: ' ' :: u :: ((a :: w') ++ r)) =
      some (' ' :: u :: ((a :: w') ++ r)) := rfl
  have hws : wsPlus (' ' :: u :: ((a :: w') ++ r)) = some ([' '], u :: ((a :: w') ++ r)) := by
    unfold wsPlus
    have t1 : (' ' :: u :: ((a :: w') ++ r)).takeWhile isWS = [' '] := by
      rw [List.takeWhile_cons, List.takeWhile_cons, hu]
      simp [show isWS ' ' = true from rfl]
    have t2 : (' ' :: u :: ((a :: w') ++ r)).dropWhile isWS = u :: ((a :: w') ++ r) := by
      rw [List.dropWhile_cons, List.dropWhile_cons, hu]
      simp [show isWS ' ' = true from rfl]
    rw [t1, t2]
  have hcap : capTail (u :: ((a :: w') ++ r)) = some (u :: a :: w', r) := by
    unfold capTail
    simp only [h1, if_true, htw, hdw]
  simp only [hlit, hws, hcap]
  rfl

/-- The physician-visit match at a "Visited Physician: " prefix: the captured
name is the entire maximal run of letters and whitespace starting at the
uppercase letter. -/
theorem m_visit_step (u : Char) (w r : List Char) (h1 : isUpperA u = true) (h2 : w ≠ [])
    (h3 : ∀ c ∈ w, (isAlphaA c || isWS c) = true)
    (h4 : ∀ c, r.head? = some c → (isAlphaA c || isWS c) = false) :
    m_visit none (("Visited Physician: ").toList ++ u :: w ++ r) =
      some (("Visited Physician: ").toList ++ u :: w, r) := by
  obtain ⟨a, w', rfl⟩ := List.exists_cons_of_ne_nil h2
  have hu : isWS u = false := upper_not_ws h1
  have htw : ((a :: w') ++ r).takeWhile (fun d => isAlphaA d || isWS d) = a :: w' := by
    rw [List.takeWhile_append_of_pos h3, takeWhile_nil_of_head h4, List.append_nil]
  have hdw : ((a :: w') ++ r).dropWhile (fun d => isAlphaA d || isWS d) = r := by
    rw [List.dropWhile_append_of_pos h3, dropWhile_self_of_head h4]
  show m_visit none ('V' :: 'i' :: 's' :: 'i' :: 't' :: 'e' :: 'd' :: ' ' :: 'P' :: 'h' ::
    'y' :: 's' :: 'i' :: 'c' :: 'i' :: 'a' :: 'n' :: ':' :: ' ' :: u :: ((a :: w') ++ r)) = _
  unfold m_visit
  have hlit : litP (("Visited Physician:").toList)
      ('V' :: 'i' :: 's' :: 'i' :: 't' :: 'e' :: 'd' :: ' ' :: 'P' :: 'h' ::
        'y' :: 's' :: 'i' :: 'c' :: 'i' :: 'a' :: 'n' :: ':' :: ' ' :: u :: ((a :: w') ++ r)) =
      some (' ' :: u :: ((a :: w') ++ r)) := rfl
  have hws : wsPlus (' ' :: u :: ((a :: w') ++ r)) = some ([' '], u :: ((a :: w') ++ r)) := by
    unfold wsPlus
    have t1 : (' ' :: u :: ((a :: w') ++ r)).takeWhile isWS = [' '] := by
      rw [List.takeWhile_cons, List.takeWhile_cons, hu]
      simp [show isWS ' ' = true from rfl]
    have t2 : (' ' :: u :: ((a :: w') ++ r)).dropWhile isWS = u :: ((a :: w') ++ r) := by
      rw [List.dropWhile_cons, List.dropWhile_cons, hu]
      simp [show isWS ' ' = true from rfl]
    rw [t1, t2]
  have hcap : capTail (u :: ((a :: w') ++ r)) = some (u :: a :: w', r) := by
    unfold capTail
    simp only [h1, if_true, htw, hdw]
  simp only [hlit, hws, hcap]
  rfl

/-- The cleanup stage is the strip of the three effective substitutions. -/
theorem cleanupStage_eq (l : List Char) : cleanupStage l = pyStrip (cleanCore l) := by
  unfold cleanupStage cleanCore
  rw [punctSub_id]

/-! ## Deduplication: general properties -/

theorem foldl_insNew_eq (l : List (List Char)) :
    ∀ acc, l.foldl insNew acc = ((l.map pyStrip).filter (fun t => t ≠ [])).foldl ins0 acc := by
  induction l with
  | nil => intro acc; rfl
  | cons s l ih =>
    intro acc
    by_cases h0 : pyStrip s = []
    · simp only [List.foldl_cons, List.map_cons, List.filter_cons, h0]
      have : insNew acc s = acc := by simp [insNew, h0]
      rw [this]
      simpa using ih acc
    · simp only [List.foldl_cons, List.map_cons, List.filter_cons]
      have hkeep : (decide (pyStrip s ≠ []) = true) := by simpa using h0
      rw [if_pos hkeep]
      have : insNew acc s = ins0 acc (pyStrip s) := by
        by_cases hm : pyStrip s ∈ acc
        · simp [insNew, ins0, hm]
        · simp [insNew, ins0, hm, h0]
      rw [List.foldl_cons, this, ih]

theorem dedupKeys_eq_foldl (notes : List (List Char)) :
    dedupKeys notes = (sentStream notes).foldl ins0 [] := by
  unfold dedupKeys sentStream
  rw [List.foldl_flatten, List.foldl_map]
  have hf : (fun (acc : List (List Char)) note => (splitSentences note).foldl insNew acc) =
      fun acc n => (((splitSentences n).map pyStrip).filter (fun t => t ≠ [])).foldl ins0 acc :=
    funext fun acc => funext fun n => foldl_insNew_eq _ acc
  rw [hf]

theorem foldl_ins0_firstOccs (l : List (List Char)) :
    ∀ acc, l.foldl ins0 acc = acc ++ firstOccs (l.filter (fun t => t ∉ acc)) := by
  induction l with
  | nil => intro acc; simp [firstOccs]
  | cons x l ih =>
    intro acc
    by_cases hm : x ∈ acc
    · have h1 : ins0 acc x = acc := by simp [ins0, hm]
      have h2 : (decide (x ∉ acc)) = false := by simpa using hm
      simp only [List.foldl_cons, List.filter_cons, h2, if_neg Bool.false_ne_true, h1]
      exact ih acc
    · have h1 : ins0 acc x = acc ++ [x] := by simp [ins0, hm]
      have h2 : (decide (x ∉ acc)) = true := by simpa using hm
      have h3 : (l.filter (fun t => t ∉ acc)).filter (fun t => t ≠ x) =
          l.filter (fun t => t ∉ acc ++ [x]) := by
        rw [List.filter_filter]
        exact List.filter_congr fun a _ => by
          by_cases hax : a = x <;> by_cases haa : a ∈ acc <;> simp [hax, haa]
      have h5 : (x :: l).filter (fun t => t ∉ acc) = x :: l.filter (fun t => t ∉ acc) := by
        rw [List.filter_cons, h2]
        simp
      rw [List.foldl_cons, h1, ih (acc ++ [x]), h5, firstOccs, h3, List.append_assoc]
      rfl

theorem dedupKeys_eq_firstOccs (notes : List (List Char)) :
    dedupKeys notes = firstOccs (sentStream notes) := by
  rw [dedupKeys_eq_foldl, foldl_ins0_firstOccs]
  have : (sentStream notes).filter (fun t => t ∉ ([] : List (List Char))) = sentStream notes :=
    List.filter_eq_self.mpr fun a _ => by simp
  rw [this]
  rfl

theorem firstOccs_subset_aux :
    ∀ n (l : List (List Char)), l.length ≤ n → ∀ y, y ∈ firstOccs l → y ∈ l := by
  intro n
  induction n with
  | zero =>
    intro l hl y hy
    have : l = [] := List.length_eq_zero.mp (Nat.le_zero.mp hl)
    subst this
    simp [firstOccs] at hy
  | succ n ih =>
    intro l hl y hy
    cases l with
    | nil => simp [firstOccs] at hy
    | cons x t =>
      rw [firstOccs] at hy
      rcases List.mem_cons.mp hy with h | h
      · exact h ▸ List.mem_cons_self _ _
      · have hlen : (t.filter (fun z => z ≠ x)).length ≤ n :=
          le_trans (List.length_filter_le _ _) (Nat.succ_le_succ_iff.mp (by simpa using hl))
        have := ih _ hlen y h
        exact List.mem_cons_of_mem _ (List.mem_of_mem_filter this)

theorem firstOccs_nodup_aux :
    ∀ n (l : List (List Char)), l.length ≤ n → (firstOccs l).Nodup := by
  intro n
  induction n with
  | zero =>
    intro l hl
    have : l = [] := List.length_eq_zero.mp (Nat.le_zero.mp hl)
    subst this
    simp [firstOccs]
  | succ n ih =>
    intro l hl
    cases l with
    | nil => simp [firstOccs]
    | cons x t =>
      rw [firstOccs]
      have hlen : (t.filter (fun z => z ≠ x)).length ≤ n :=
        le_trans (List.length_filter_le _ _) (Nat.succ_le_succ_iff.mp (by simpa using hl))
      refine List.nodup_cons.mpr ⟨fun hx => ?_, ih _ hlen⟩
      have := firstOccs_subset_aux _ _ le_rfl _ hx
      have := List.of_mem_filter this
      simp at this

theorem firstOccs_sublist_aux :
    ∀ n (l : List (List Char)), l.length ≤ n → List.Sublist (firstOccs l) l := by
  intro n
  induction n with
  | zero =>
    intro l hl
    have : l = [] := List.length_eq_zero.mp (Nat.le_zero.mp hl)
    subst this
    simp [firstOccs]
  | succ n ih =>
    intro l hl
    cases l with
    | nil => simp [firstOccs]
    | cons x t =>
      rw [firstOccs]
      have hlen : (t.filter (fun z => z ≠ x)).length ≤ n :=
        le_trans (List.length_filter_le _ _) (Nat.succ_le_succ_iff.mp (by simpa using hl))
      exact List.Sublist.cons₂ x ((ih _ hlen).trans (List.filter_sublist _))

/-! ## Lab extraction: the no-match case -/

theorem extractTable_foldl_nil :
    ∀ (ns : List (List Char)) (t : List (List Char × List (List Char))),
      (∀ n ∈ ns, labFind n = []) →
      ns.foldl
        (fun t note =>
          (labFind note).foldl (fun t2 m => tableAdd t2 (pyTitle (pyStrip m.1)) (pyStrip m.2)) t)
        t = t := by
  intro ns
  induction ns with
  | nil => intro t _; rfl
  | cons n ns ih =>
    intro t h
    rw [List.foldl_cons, h n (List.mem_cons_self _ _)]
    exact ih t fun m hm => h m (List.mem_cons_of_mem _ hm)

theorem extractLab_of_no_match (ns : List (List Char)) (h : ∀ n ∈ ns, labFind n = []) :
    extractLab ns = ([], [], none) := by
  have ht : extractTable ns = [] := extractTable_foldl_nil ns [] h
  simp [extractLab, ht]

/-! ## Cleanup idempotence: scanner-step lemmas -/

theorem m_hyph_hyphen (p : Option Char) (t : List Char) :
    m_hyph p ('-' :: t) = some ('-' :: t.takeWhile isWS, t.dropWhile isWS) := rfl

theorem m_hyph_nomatch₁ {p : Option Char} {c : Char} {t : List Char}
    (hws : isWS c = false) (hc : c ≠ '-') : m_hyph p (c :: t) = none := by
  unfold m_hyph
  have hd : (c :: t).dropWhile isWS = c :: t := by simp [List.dropWhile_cons, hws]
  rw [hd]
  split
  case h_1 r heq =>
    obtain ⟨h1, h2⟩ := List.cons.injEq .. ▸ heq
    exact absurd h1 hc
  case h_2 => rfl

theorem m_hyph_nomatch₂ {p : Option Char} {c : Char} {t : List Char} (hws : isWS c = true)
    (ht : ∀ d, t.head? = some d → isWS d = false ∧ d ≠ '-') : m_hyph p (c :: t) = none := by
  unfold m_hyph
  have hd : (c :: t).dropWhile isWS = t.dropWhile isWS := by simp [List.dropWhile_cons, hws]
  have hd2 : t.dropWhile isWS = t := dropWhile_self_of_head fun d h => (ht d h).1
  rw [hd, hd2]
  cases t with
  | nil => rfl
  | cons d t' =>
    split
    case h_1 r heq =>
      obtain ⟨h1, h2⟩ := List.cons.injEq .. ▸ heq
      exact absurd h1 (ht d rfl).2
    case h_2 => rfl

theorem hyphSub_nil : hyphSub [] = [] := rfl

theorem hyphSub_cons_nonHW {c : Char} {t : List Char} (hws : isWS c = false) (hc : c ≠ '-') :
    hyphSub (c :: t) = c :: hyphSub t :=
  runSub_nomatch prevFree_m_hyph c t (m_hyph_nomatch₁ hws hc)

theorem hyphSub_cons_ws {c : Char} {t : List Char} (hws : isWS c = true)
    (ht : ∀ d, t.head? = some d → isWS d = false ∧ d ≠ '-') :
    hyphSub (c :: t) = c :: hyphSub t :=
  runSub_nomatch prevFree_m_hyph c t (m_hyph_nomatch₂ hws ht)

theorem hyphSub_hyphen {t : List Char} (ht : ∀ d, t.head? = some d → isWS d = false) :
    hyphSub ('-' :: t) = (" - ").toList ++ hyphSub t := by
  have h := m_hyph_hyphen (p := none) (t := t)
  rw [takeWhile_nil_of_head ht, dropWhile_self_of_head ht] at h
  exact runSub_match consumes_m_hyph prevFree_m_hyph '-' t _ _ h

theorem hyphSub_sp_hyphen {t : List Char} (ht : ∀ d, t.head? = some d → isWS d = false) :
    hyphSub (' ' :: '-' :: t) = (" - ").toList ++ hyphSub t := by
  have h : m_hyph none (' ' :: '-' :: t) =
      some (' ' :: '-' :: t.takeWhile isWS, t.dropWhile isWS) := rfl
  rw [takeWhile_nil_of_head ht, dropWhile_self_of_head ht] at h
  exact runSub_match consumes_m_hyph prevFree_m_hyph ' ' _ _ _ h

theorem hyphSub_head {t : List Char} {d : Char} (hd : t.head? = some d) (hws : isWS d = false)
    (hh : d ≠ '-') : (hyphSub t).head? = some d := by
  cases t with
  | nil => exact Option.noConfusion hd
  | cons c t' =>
    have : c = d := by injection hd
    subst this
    rw [hyphSub_cons_nonHW hws hh]
    rfl

theorem m_comma_shape {p : Option Char} {l con rest : List Char}
    (h : m_comma p l = some (con, rest)) :
    ∃ r, l = ',' :: ',' :: r ∧ con = ',' :: ',' :: r.takeWhile (fun c => c = ',') ∧
      rest = r.dropWhile (fun c => c = ',') := by
  unfold m_comma at h
  split at h
  case h_1 r =>
    simp only [Option.some_inj] at h
    obtain ⟨h1, h2⟩ := Prod.mk.injEq .. ▸ h
    exact ⟨r, rfl, h1.symm, h2.symm⟩
  case h_2 => exact Option.noConfusion h

theorem m_comma_nomatch {p : Option Char} {c : Char} {t : List Char}
    (h : ¬(c = ',' ∧ t.head? = some ',')) : m_comma p (c :: t) = none := by
  unfold m_comma
  split
  case h_1 r heq =>
    obtain ⟨h1, h2⟩ := List.cons.injEq .. ▸ heq
    exact absurd ⟨h1, by rw [h2]; rfl⟩ h
  case h_2 => rfl

theorem commaSub_nil : commaSub [] = [] := rfl

theorem commaSub_cons {c : Char} {t : List Char} (h : ¬(c = ',' ∧ t.head? = some ',')) :
    commaSub (c :: t) = c :: commaSub t :=
  runSub_nomatch prevFree_m_comma c t (m_comma_nomatch h)

theorem commaSub_append_nocomma {a : List Char} (ha : ∀ c ∈ a, c ≠ ',') :
    ∀ x, commaSub (a ++ x) = a ++ commaSub x := by
  induction a with
  | nil => intro x; rfl
  | cons c a' ih =>
    intro x
    have hc : c ≠ ',' := ha c (List.mem_cons_self _ _)
    rw [List.cons_append, commaSub_cons (fun hh => hc hh.1),
      ih (fun d hd => ha d (List.mem_cons_of_mem _ hd)) x]
    rfl

theorem commaSub_head (l : List Char) : (commaSub l).head? = l.head? := by
  cases l with
  | nil => rfl
  | cons c t =>
    cases hm : m_comma none (c :: t) with
    | none =>
      have h1 : commaSub (c :: t) = c :: commaSub t :=
        runSub_nomatch prevFree_m_comma c t hm
      rw [h1]
      rfl
    | some pr =>
      obtain ⟨con, rest⟩ := pr
      obtain ⟨r, hl, _, _⟩ := m_comma_shape hm
      have h1 : commaSub (c :: t) = ',' :: commaSub rest :=
        runSub_match consumes_m_comma prevFree_m_comma c t con rest hm
      rw [h1]
      have : c = ',' := by injection hl
      rw [this]
      rfl

theorem m_ws2_nomatch {p : Option Char} {c : Char} {t : List Char}
    (h : ¬(isWS c = true ∧ ∃ d, t.head? = some d ∧ isWS d = true)) :
    m_ws2 p (c :: t) = none := by
  unfold m_ws2
  cases t with
  | nil => rfl
  | cons d t' =>
    have : (isWS c && isWS d) = false := by
      rw [Bool.and_eq_false_iff]
      by_cases hc : isWS c = true
      · right
        by_cases hdd : isWS d = true
        · exact absurd ⟨hc, d, rfl, hdd⟩ h
        · simpa using hdd
      · left; simpa using hc
    simp only [this]
    rfl

theorem wsSub_nil : wsSub [] = [] := rfl

theorem wsSub_cons {c : Char} {t : List Char}
    (h : ¬(isWS c = true ∧ ∃ d, t.head? = some d ∧ isWS d = true)) :
    wsSub (c :: t) = c :: wsSub t :=
  runSub_nomatch prevFree_m_ws2 c t (m_ws2_nomatch h)

theorem wsSub_cons_nonws {c : Char} {t : List Char} (hc : isWS c = false) :
    wsSub (c :: t) = c :: wsSub t :=
  wsSub_cons (fun hh => by rw [hh.1] at hc; exact Bool.noConfusion hc)

theorem wsSub_collapse {a b : Char} {t : List Char} (ha : isWS a = true) (hb : isWS b = true)
    (ht : ∀ d, t.head? = some d → isWS d = false) :
    wsSub (a :: b :: t) = ' ' :: wsSub t := by
  have h : m_ws2 none (a :: b :: t) = some (a :: b :: t.takeWhile isWS, t.dropWhile isWS) := by
    unfold m_ws2
    simp only [ha, hb]
    rfl
  rw [takeWhile_nil_of_head ht, dropWhile_self_of_head ht] at h
  exact runSub_match consumes_m_ws2 prevFree_m_ws2 a _ _ _ h

/-! ## Cleanup idempotence: hyphen chains -/

theorem cblE_cons : ∀ k, 1 ≤ k → ∃ tl, cblE k = '-' :: tl := by
  intro k hk
  match k with
  | 1 => exact ⟨[], rfl⟩
  | (m + 2) => exact ⟨' ' :: cblE (m + 1), rfl⟩

theorem cblE_succ : ∀ k, 1 ≤ k → cblE (k + 1) = '-' :: ' ' :: cblE k := by
  intro k hk
  match k with
  | (m + 1) => rfl

theorem cbl_eq : ∀ k, 1 ≤ k → cbl k = cblE k ++ [' '] := by
  intro k
  induction k with
  | zero => intro h; exact absurd h (by simp)
  | succ m ih =>
    intro _
    cases m with
    | zero => rfl
    | succ m' =>
      rw [cbl, ih (by simp), cblE_succ (m' + 1) (by simp)]
      rfl

theorem cblE_getLast : ∀ k, 1 ≤ k → (cblE k).getLast? = some '-' := by
  intro k
  induction k with
  | zero => intro h; exact absurd h (by simp)
  | succ m ih =>
    intro _
    cases m with
    | zero => rfl
    | succ m' =>
      rw [cblE_succ (m' + 1) (by simp)]
      obtain ⟨tl, htl⟩ := cblE_cons (m' + 1) (by simp)
      rw [htl]
      rw [htl] at ih
      simpa using ih (by simp)

theorem rp_mem : ∀ k, ∀ c ∈ rp k, c = ' ' ∨ c = '-' := by
  intro k
  induction k with
  | zero => intro c hc; simp [rp] at hc
  | succ m ih =>
    intro c hc
    rw [rp] at hc
    simp only [List.mem_cons] at hc
    rcases hc with h | h | h | h
    · exact Or.inl h
    · exact Or.inr h
    · exact Or.inl h
    · exact ih c h

theorem hyphSub_cblE : ∀ k, 1 ≤ k →
    hyphSub (cblE k) = rp k ∧
    (∀ t, (∀ d, t.head? = some d → isWS d = false) →
      hyphSub (cblE k ++ ' ' :: t) = rp k ++ hyphSub t) := by
  intro k
  induction k with
  | zero => intro h; exact absurd h (by simp)
  | succ m ih =>
    intro _
    cases m with
    | zero =>
      constructor
      · show hyphSub ['-'] = rp 1
        rw [hyphSub_hyphen (fun d h => Option.noConfusion h)]
        rfl
      · intro t ht
        show hyphSub ('-' :: ' ' :: t) = rp 1 ++ hyphSub t
        have h : m_hyph none ('-' :: ' ' :: t) =
            some ('-' :: ' ' :: t.takeWhile isWS, t.dropWhile isWS) := rfl
        rw [takeWhile_nil_of_head ht, dropWhile_self_of_head ht] at h
        exact runSub_match consumes_m_hyph prevFree_m_hyph '-' _ _ _ h
    | succ m' =>
      obtain ⟨ih1, ih2⟩ := ih (by simp)
      obtain ⟨tl, htl⟩ := cblE_cons (m' + 1) (by simp)
      have hht : ∀ (x : List Char) d, (cblE (m' + 1) ++ x).head? = some d → isWS d = false := by
        intro x d hd
        rw [htl] at hd
        injection hd with h1
        rw [← h1]
        rfl
      constructor
      · rw [cblE_succ (m' + 1) (by simp)]
        have h : m_hyph none ('-' :: ' ' :: cblE (m' + 1)) =
            some ('-' :: ' ' :: (cblE (m' + 1)).takeWhile isWS,
              (cblE (m' + 1)).dropWhile isWS) := rfl
        rw [takeWhile_nil_of_head (fun d hd => by
              have := hht [] d (by simpa using hd)
              exact this),
            dropWhile_self_of_head (fun d hd => by
              have := hht [] d (by simpa using hd)
              exact this)] at h
        have hx : hyphSub ('-' :: ' ' :: cblE (m' + 1)) =
            (" - ").toList ++ hyphSub (cblE (m' + 1)) :=
          runSub_match consumes_m_hyph prevFree_m_hyph '-' _ _ _ h
        rw [hx, ih1]
        rfl
      · intro t ht
        rw [cblE_succ (m' + 1) (by simp)]
        show hyphSub ('-' :: ' ' :: (cblE (m' + 1) ++ ' ' :: t)) = _
        have h : m_hyph none ('-' :: ' ' :: (cblE (m' + 1) ++ ' ' :: t)) =
            some ('-' :: ' ' :: (cblE (m' + 1) ++ ' ' :: t).takeWhile isWS,
              (cblE (m' + 1) ++ ' ' :: t).dropWhile isWS) := rfl
        rw [takeWhile_nil_of_head (hht (' ' :: t)), dropWhile_self_of_head (hht (' ' :: t))] at h
        have hx : hyphSub ('-' :: ' ' :: (cblE (m' + 1) ++ ' ' :: t)) =
            (" - ").toList ++ hyphSub (cblE (m' + 1) ++ ' ' :: t) :=
          runSub_match consumes_m_hyph prevFree_m_hyph '-' _ _ _ h
        rw [hx, ih2 t ht]
        rfl

theorem wsSub_dash_sp : ∀ k (Y : List Char), (∀ d, Y.head? = some d → isWS d = false) →
    wsSub ('-' :: ' ' :: (rp k ++ Y)) = cbl (k + 1) ++ wsSub Y := by
  intro k
  induction k with
  | zero =>
    intro Y hY
    show wsSub ('-' :: ' ' :: Y) = cbl 1 ++ wsSub Y
    rw [wsSub_cons_nonws (show isWS '-' = false from rfl)]
    rw [wsSub_cons (fun hh => by
      obtain ⟨h1, d, hd, hws⟩ := hh
      rw [hY d hd] at hws
      exact Bool.noConfusion hws)]
    rfl
  | succ m ih =>
    intro Y hY
    show wsSub ('-' :: ' ' :: ((' ' :: '-' :: ' ' :: rp m) ++ Y)) = _
    rw [wsSub_cons_nonws (show isWS '-' = false from rfl)]
    have hc : wsSub (' ' :: ' ' :: ('-' :: ' ' :: (rp m ++ Y))) =
        ' ' :: wsSub ('-' :: ' ' :: (rp m ++ Y)) :=
      wsSub_collapse rfl rfl (fun d hd => by injection hd with h1; rw [← h1]; rfl)
    show '-' :: wsSub (' ' :: ' ' :: ('-' :: ' ' :: (rp m ++ Y))) = _
    rw [hc, ih Y hY]
    rfl

theorem wsSub_rp : ∀ k, 1 ≤ k → ∀ (Y : List Char),
    (∀ d, Y.head? = some d → isWS d = false) →
    wsSub (rp k ++ Y) = ' ' :: (cbl k ++ wsSub Y) := by
  intro k hk Y hY
  match k with
  | (m + 1) =>
    show wsSub (' ' :: ('-' :: ' ' :: (rp m ++ Y))) = _
    rw [wsSub_cons (fun hh => by
      obtain ⟨h0, d, hd, hws⟩ := hh
      injection hd with h1
      rw [← h1] at hws
      exact Bool.noConfusion hws)]
    rw [wsSub_dash_sp m Y hY]

theorem okPair_not_wsws {a b : Char} (h : okPair a b = true) :
    ¬(isWS a = true ∧ isWS b = true) := by
  intro hh
  unfold okPair at h
  rw [hh.1, hh.2] at h
  simp at h

theorem okPair_not_comma {a b : Char} (h : okPair a b = true) : ¬(a = ',' ∧ b = ',') := by
  intro hh
  unfold okPair at h
  rw [hh.1, hh.2] at h
  simp at h

theorem okPair_hyph_l {a b : Char} (h : okPair a b = true) (ha : a = '-') : b = ' ' := by
  by_contra hb
  unfold okPair at h
  rw [ha] at h
  simp [hb] at h

theorem okPair_hyph_r {a b : Char} (h : okPair a b = true) (hb : b = '-') : a = ' ' := by
  by_contra ha
  unfold okPair at h
  rw [hb] at h
  simp [ha] at h

theorem chain_decomp : ∀ n (t : List Char), t.length ≤ n → Canon ('-' :: t) →
    ∃ k t', 1 ≤ k ∧
      (('-' :: t = cblE k ∧ t' = ([] : List Char)) ∨
       ('-' :: t = cblE k ++ ' ' :: t' ∧ Canon t' ∧
        (∀ d, t'.head? = some d → isWS d = false ∧ d ≠ '-'))) := by
  intro n
  induction n with
  | zero =>
    intro t ht _
    have : t = [] := List.length_eq_zero.mp (Nat.le_zero.mp ht)
    subst this
    exact ⟨1, [], le_rfl, Or.inl ⟨rfl, rfl⟩⟩
  | succ n ih =>
    intro t ht hc
    cases t with
    | nil => exact ⟨1, [], le_rfl, Or.inl ⟨rfl, rfl⟩⟩
    | cons d t2 =>
      obtain ⟨hp1, hc2⟩ := List.chain'_cons.mp hc
      have hd : d = ' ' := okPair_hyph_l hp1 rfl
      subst hd
      cases t2 with
      | nil =>
        refine ⟨1, [], le_rfl, Or.inr ⟨rfl, List.chain'_nil, fun d hd => Option.noConfusion hd⟩⟩
      | cons e t3 =>
        obtain ⟨hp2, hc3⟩ := List.chain'_cons.mp hc2
        have hew : isWS e = false := by
          by_cases hw : isWS e = true
          · exact absurd ⟨rfl, hw⟩ (okPair_not_wsws hp2)
          · simpa using hw
        by_cases he : e = '-'
        · subst he
          obtain ⟨k', t'', hk', hform⟩ := ih t3 (by simp at ht; omega) hc3
          refine ⟨k' + 1, t'', le_trans hk' (by simp), ?_⟩
          rcases hform with ⟨heq, ht'⟩ | ⟨heq, hcan, hhead⟩
          · exact Or.inl ⟨by rw [cblE_succ k' hk', ← heq], ht'⟩
          · refine Or.inr ⟨?_, hcan, hhead⟩
            rw [cblE_succ k' hk']
            show '-' :: ' ' :: ('-' :: t3) = ('-' :: ' ' :: cblE k') ++ ' ' :: t''
            rw [heq]
            rfl
        · exact ⟨1, e :: t3, le_rfl,
            Or.inr ⟨rfl, hc3, fun d hd => by injection hd with h1; exact ⟨h1 ▸ hew, h1 ▸ he⟩⟩⟩

/-! ## Cleanup idempotence: padding lemmas and the canonical identity -/

theorem padB_nil : padB [] = [] := rfl

theorem padB_cons {c : Char} {t : List Char} (ht : t ≠ []) : padB (c :: t) = c :: padB t := by
  cases t with
  | nil => exact absurd rfl ht
  | cons d t' =>
    unfold padB
    rw [List.getLast?_cons_cons]
    split
    · rfl
    · rfl

theorem padB_append {a b : List Char} (hb : b ≠ []) : padB (a ++ b) = a ++ padB b := by
  unfold padB
  rw [List.getLast?_append_of_ne_nil _ hb]
  split
  · rw [List.append_assoc]
  · rfl

theorem padB_head {X : List Char} (hx : X ≠ []) : (padB X).head? = X.head? := by
  unfold padB
  split
  · cases X with
    | nil => exact absurd rfl hx
    | cons c t => rfl
  · rfl

theorem padF_eq_self {X : List Char} (hx : ∀ d, X.head? = some d → d ≠ '-') : padF X = X := by
  unfold padF
  split
  case isTrue h => exact absurd h (fun hh => hx '-' hh rfl)
  case isFalse => rfl

theorem padF_hyph {X : List Char} (hx : X.head? = some '-') : padF X = ' ' :: X := by
  unfold padF
  rw [if_pos hx]

theorem hyphSub_sp_eq (X : List Char) : hyphSub (' ' :: '-' :: X) = hyphSub ('-' :: X) := by
  have h1 : m_hyph none (' ' :: '-' :: X) =
      some (' ' :: '-' :: X.takeWhile isWS, X.dropWhile isWS) := rfl
  have h2 : m_hyph none ('-' :: X) =
      some ('-' :: X.takeWhile isWS, X.dropWhile isWS) := rfl
  have e1 : hyphSub (' ' :: '-' :: X) = (" - ").toList ++ runSub m_hyph
      (fun _ => (" - ").toList) (X.dropWhile isWS) :=
    runSub_match consumes_m_hyph prevFree_m_hyph ' ' _ _ _ h1
  have e2 : hyphSub ('-' :: X) = (" - ").toList ++ runSub m_hyph
      (fun _ => (" - ").toList) (X.dropWhile isWS) :=
    runSub_match consumes_m_hyph prevFree_m_hyph '-' _ _ _ h2
  rw [e1, e2]

theorem hyphSub_head_cases (t : List Char) :
    (hyphSub t).head? = t.head? ∨ (hyphSub t).head? = some ' ' := by
  cases t with
  | nil => exact Or.inl rfl
  | cons c t' =>
    cases hm : m_hyph none (c :: t') with
    | none =>
      left
      have h1 : hyphSub (c :: t') = c :: hyphSub t' := runSub_nomatch prevFree_m_hyph c t' hm
      rw [h1]
      rfl
    | some pr =>
      right
      obtain ⟨con, rest⟩ := pr
      have h1 : hyphSub (c :: t') = (" - ").toList ++ runSub m_hyph
          (fun _ => (" - ").toList) rest :=
        runSub_match consumes_m_hyph prevFree_m_hyph c t' con rest hm
      rw [h1]
      rfl

theorem ws_ne_comma {c : Char} (h : isWS c = true) : c ≠ ',' := by
  intro heq
  subst heq
  exact absurd h (by decide)

theorem commaSub_rp (k : Nat) : commaSub (rp k) = rp k := by
  have h := commaSub_append_nocomma
    (fun c hc => by rcases rp_mem k c hc with h | h <;> (subst h; decide)) []
  simpa [commaSub_nil] using h

/-- On a canonical string the cleanup core only restores the implicit edge
spaces around a leading or trailing hyphen. -/
theorem cleanCore_canon : ∀ n (l : List Char), l.length ≤ n → Canon l →
    cleanCore l = padF (padB l) := by
  intro n
  induction n with
  | zero =>
    intro l hl _
    have : l = [] := List.length_eq_zero.mp (Nat.le_zero.mp hl)
    subst this
    rfl
  | succ n ih =>
    intro l hl hc
    cases l with
    | nil => rfl
    | cons c t =>
      by_cases hhy : c = '-'
      · subst hhy
        obtain ⟨k, t', hk, hform⟩ := chain_decomp t.length t le_rfl hc
        obtain ⟨tl, htl⟩ := cblE_cons k hk
        rcases hform with ⟨heq, _⟩ | ⟨heq, hcan, hhead⟩
        · rw [heq]
          unfold cleanCore
          rw [(hyphSub_cblE k hk).1, commaSub_rp k]
          have hws : wsSub (rp k) = ' ' :: cbl k := by
            have h := wsSub_rp k hk [] (fun d hd => Option.noConfusion hd)
            simpa [wsSub_nil] using h
          rw [hws]
          have hpb : padB (cblE k) = cblE k ++ [' '] := by
            unfold padB
            rw [cblE_getLast k hk]
            simp
          rw [hpb, padF_hyph (by rw [htl]; rfl), cbl_eq k hk]
        · rw [heq]
          unfold cleanCore
          rw [(hyphSub_cblE k hk).2 t' (fun d hd => (hhead d hd).1)]
          rw [commaSub_append_nocomma
            (fun c hc => by rcases rp_mem k c hc with h | h <;> (subst h; decide)) _]
          have hX : ∀ d, (commaSub (hyphSub t')).head? = some d → isWS d = false := by
            intro d hd
            rw [commaSub_head] at hd
            cases t' with
            | nil => exact Option.noConfusion hd
            | cons e t2 =>
              obtain ⟨hew, heh⟩ := hhead e rfl
              rw [hyphSub_head (show (e :: t2).head? = some e from rfl) hew heh] at hd
              injection hd with h1
              rw [← h1]
              exact hew
          rw [wsSub_rp k hk _ hX]
          have hlen : t'.length ≤ n := by
            have : ('-' :: t).length = (cblE k ++ ' ' :: t').length := by rw [heq]
            rw [htl] at this
            simp at this hl
            omega
          have hrec : wsSub (commaSub (hyphSub t')) = padF (padB t') := ih t' hlen hcan
          rw [hrec]
          have hpf : padF (padB t') = padB t' := by
            cases ht' : t' with
            | nil => rfl
            | cons e t2 =>
              refine padF_eq_self fun d hd => ?_
              rw [padB_head (by simp), List.head?_cons, Option.some_inj] at hd
              exact hd ▸ (hhead e (by rw [ht']; rfl)).2
          rw [hpf]
          have hpbr : padB (cblE k ++ ' ' :: t') = cblE k ++ ' ' :: padB t' := by
            rw [padB_append (by simp)]
            cases t' with
            | nil => rfl
            | cons e t2 => rw [padB_cons (by simp)]
          rw [hpbr, padF_hyph (by rw [htl]; rfl), cbl_eq k hk]
          simp
      · by_cases hws : isWS c = true
        · cases t with
          | nil =>
            unfold cleanCore
            rw [hyphSub_cons_ws hws (fun d hd => Option.noConfusion hd), hyphSub_nil]
            rw [commaSub_cons (fun hh => Option.noConfusion hh.2), commaSub_nil]
            rw [wsSub_cons (fun hh => by obtain ⟨h1, d, hd, h2⟩ := hh; exact Option.noConfusion hd),
              wsSub_nil]
            unfold padB padF
            simp [hhy]
          | cons d t2 =>
            obtain ⟨hp1, hc2⟩ := List.chain'_cons.mp hc
            have hdw : isWS d = false := by
              by_cases hw : isWS d = true
              · exact absurd ⟨hws, hw⟩ (okPair_not_wsws hp1)
              · simpa using hw
            by_cases hd : d = '-'
            · have hcsp : c = ' ' := okPair_hyph_r hp1 hd
              subst hcsp
              subst hd
              have hcore : cleanCore (' ' :: '-' :: t2) = cleanCore ('-' :: t2) := by
                unfold cleanCore
                rw [hyphSub_sp_eq]
              rw [hcore, ih ('-' :: t2) (by simpa using hl) hc2]
              rw [padF_hyph (by rw [padB_head (by simp)]; rfl)]
              rw [show padB (' ' :: '-' :: t2) = ' ' :: padB ('-' :: t2) from padB_cons (by simp)]
              rw [padF_eq_self (fun e he => by
                injection he with h1
                rw [← h1]
                decide)]
            · unfold cleanCore
              rw [hyphSub_cons_ws hws (fun e he => by
                injection he with h1
                exact ⟨h1 ▸ hdw, h1 ▸ hd⟩)]
              rw [commaSub_cons (fun hh => ws_ne_comma hws hh.1)]
              rw [wsSub_cons (fun hh => by
                obtain ⟨h1, e, he, h2⟩ := hh
                rw [commaSub_head,
                  hyphSub_head (show (d :: t2).head? = some d from rfl) hdw hd] at he
                injection he with h3
                rw [← h3] at h2
                rw [hdw] at h2
                exact Bool.noConfusion h2)]
              have hrec : wsSub (commaSub (hyphSub (d :: t2))) = padF (padB (d :: t2)) :=
                ih (d :: t2) (by simpa using hl) hc2
              rw [hrec, padF_eq_self (fun e he => by
                rw [padB_head (by simp), List.head?_cons, Option.some_inj] at he
                exact he ▸ hd)]
              rw [show padB (c :: d :: t2) = c :: padB (d :: t2) from padB_cons (by simp)]
              rw [padF_eq_self (fun e he => by
                injection he with h1
                exact h1 ▸ hhy)]
        · have hwsf : isWS c = false := by simpa using hws
          cases t with
          | nil =>
            unfold cleanCore
            rw [hyphSub_cons_nonHW hwsf hhy, hyphSub_nil]
            rw [commaSub_cons (fun hh => Option.noConfusion hh.2), commaSub_nil]
            rw [wsSub_cons (fun hh => by obtain ⟨h1, d, hd, h2⟩ := hh; exact Option.noConfusion hd),
              wsSub_nil]
            unfold padB padF
            simp [hhy]
          | cons d t2 =>
            obtain ⟨hp1, hc2⟩ := List.chain'_cons.mp hc
            have hd : d ≠ '-' := fun hh => by
              have := okPair_hyph_r hp1 hh
              rw [this] at hwsf
              exact absurd hwsf (by decide)
            unfold cleanCore
            rw [hyphSub_cons_nonHW hwsf hhy]
            rw [commaSub_cons (fun hh => by
              obtain ⟨hc', hh2⟩ := hh
              rcases hyphSub_head_cases (d :: t2) with hcase | hcase
              · rw [hcase] at hh2
                injection hh2 with h1
                exact okPair_not_comma hp1 ⟨hc', h1⟩
              · rw [hcase] at hh2
                injection hh2 with h1
                exact absurd h1 (by decide))]
            rw [wsSub_cons_nonws hwsf]
            have hrec : wsSub (commaSub (hyphSub (d :: t2))) = padF (padB (d :: t2)) :=
              ih (d :: t2) (by simpa using hl) hc2
            rw [hrec, padF_eq_self (fun e he => by
              rw [padB_head (by simp), List.head?_cons, Option.some_inj] at he
              exact he ▸ hd)]
            rw [show padB (c :: d :: t2) = c :: padB (d :: t2) from padB_cons (by simp)]
            rw [padF_eq_self (fun e he => by
              injection he with h1
              exact h1 ▸ hhy)]

/-! ## Cleanup idempotence: the invariant -/

theorem head_dropWhile_false {p : Char → Bool} {l : List Char} {d : Char}
    (h : (l.dropWhile p).head? = some d) : p d = false := by
  induction l with
  | nil => exact Option.noConfusion h
  | cons c t ih =>
    rw [List.dropWhile_cons] at h
    split at h
    · exact ih h
    · case isFalse hf =>
        injection h with h1
        rw [← h1]
        simpa using hf

theorem chain'_dropWhile {R : Char → Char → Prop} {p : Char → Bool} {l : List Char}
    (h : List.Chain' R l) : List.Chain' R (l.dropWhile p) := by
  induction l with
  | nil => exact h
  | cons c t ih =>
    rw [List.dropWhile_cons]
    split
    · exact ih h.tail
    · exact h

theorem hpPair_of_ne {a b : Char} (ha : a ≠ '-') (hb : b ≠ '-') : hpPair a b = true := by
  unfold hpPair
  rw [decide_eq_false ha, decide_eq_false hb]
  rfl

theorem hpPair_sp_left (b : Char) : hpPair ' ' b = true := by
  unfold hpPair
  simp

theorem hpPair_hyph_r {a b : Char} (h : hpPair a b = true) (hb : b = '-') : a = ' ' := by
  by_contra ha
  unfold hpPair at h
  rw [hb] at h
  simp [ha] at h

theorem hpcPair_mk {a b : Char} (h1 : hpPair a b = true) (h2 : ¬(a = ',' ∧ b = ',')) :
    hpcPair a b = true := by
  unfold hpcPair
  rw [h1]
  by_cases ha : a = ',' <;> by_cases hb : b = ',' <;> simp_all

theorem hpcPair_hp {a b : Char} (h : hpcPair a b = true) : hpPair a b = true := by
  unfold hpcPair at h
  exact (Bool.and_eq_true_iff.mp h).1

theorem hpcPair_comma {a b : Char} (h : hpcPair a b = true) : ¬(a = ',' ∧ b = ',') := by
  intro hh
  unfold hpcPair at h
  rw [hh.1, hh.2] at h
  simp at h

theorem okPair_mk {a b : Char} (h1 : hpPair a b = true) (h2 : ¬(a = ',' ∧ b = ','))
    (h3 : ¬(isWS a = true ∧ isWS b = true)) : okPair a b = true := by
  unfold okPair
  unfold hpPair at h1
  obtain ⟨g1, g2⟩ := Bool.and_eq_true_iff.mp h1
  rw [g1, g2]
  by_cases ha : a = ',' <;> by_cases hb : b = ',' <;>
    by_cases wa : isWS a <;> by_cases wb : isWS b <;> simp_all

theorem okPair_sp_right {c : Char} (hc : isWS c = false) : okPair c ' ' = true := by
  unfold okPair
  rw [hc]
  simp

theorem okPair_sp_left {y : Char} (hy : isWS y = false) : okPair ' ' y = true := by
  unfold okPair
  rw [hy]
  simp

theorem hyphSub_chain : ∀ n (l : List Char), l.length ≤ n →
    List.Chain' (fun a b => hpPair a b = true) (hyphSub l) ∧
    (∀ d, (hyphSub l).head? = some d → d ≠ '-') := by
  intro n
  induction n with
  | zero =>
    intro l hl
    have : l = [] := List.length_eq_zero.mp (Nat.le_zero.mp hl)
    subst this
    exact ⟨List.chain'_nil, fun d hd => Option.noConfusion hd⟩
  | succ n ih =>
    intro l hl
    cases l with
    | nil => exact ⟨List.chain'_nil, fun d hd => Option.noConfusion hd⟩
    | cons c t =>
      cases hm : m_hyph none (c :: t) with
      | some pr =>
        obtain ⟨con, rest⟩ := pr
        obtain ⟨hne, heq⟩ := consumes_m_hyph none (c :: t) con rest hm
        have hlen : rest.length ≤ n := by
          have h1 : (c :: t).length = con.length + rest.length := by
            rw [heq, List.length_append]
          have h2 : 1 ≤ con.length := by
            cases hcc : con with
            | nil => exact absurd hcc hne
            | cons x y => simp
          simp at hl h1
          omega
        obtain ⟨ihc, ihh⟩ := ih rest hlen
        have h1 : hyphSub (c :: t) =
            (" - ").toList ++ runSub m_hyph (fun _ => (" - ").toList) rest :=
          runSub_match consumes_m_hyph prevFree_m_hyph c t con rest hm
        rw [h1]
        constructor
        · have hch3 : List.Chain' (fun a b => hpPair a b = true) ((" - ").toList) :=
            List.chain'_cons.mpr ⟨by decide,
              List.chain'_cons.mpr ⟨by decide, List.chain'_singleton _⟩⟩
          refine List.chain'_append.mpr ⟨hch3, ihc, ?_⟩
          intro x hx y hy
          have : x = ' ' := by
            simp [List.getLast?] at hx
            exact hx.symm
          rw [this]
          exact hpPair_sp_left y
        · intro d hd
          injection hd with h2
          rw [← h2]
          decide
      | none =>
        have hcne : c ≠ '-' := by
          intro hcc
          subst hcc
          rw [m_hyph_hyphen] at hm
          exact Option.noConfusion hm
        have h1 : hyphSub (c :: t) = c :: hyphSub t := runSub_nomatch prevFree_m_hyph c t hm
        obtain ⟨ihc, ihh⟩ := ih t (by simpa using hl)
        rw [h1]
        constructor
        · refine List.chain'_cons'.mpr ⟨?_, ihc⟩
          intro y hy
          exact hpPair_of_ne hcne (ihh y hy)
        · intro d hd
          injection hd with h2
          rw [← h2]
          exact hcne

theorem chain_dropComma_ne_hyph :
    ∀ (r : List Char), List.Chain' (fun a b => hpPair a b = true) (',' :: r) →
      ∀ d, ((r.dropWhile (fun c => c = ',')).head? = some d) → d ≠ '-' := by
  intro r
  induction r with
  | nil => intro _ d hd; exact Option.noConfusion hd
  | cons e r2 ih =>
    intro hch d hd
    rw [List.dropWhile_cons] at hd
    split at hd
    case isTrue he =>
      have he' : e = ',' := of_decide_eq_true he
      refine ih ?_ d hd
      have h2 := (List.chain'_cons.mp hch).2
      rw [he'] at h2
      exact h2
    case isFalse he =>
      injection hd with h1
      subst h1
      intro hh
      have h3 := hpPair_hyph_r (List.chain'_cons.mp hch).1 hh
      exact absurd h3 (by decide)

theorem commaSub_chain : ∀ n (l : List Char), l.length ≤ n →
    List.Chain' (fun a b => hpPair a b = true) l →
    List.Chain' (fun a b => hpcPair a b = true) (commaSub l) := by
  intro n
  induction n with
  | zero =>
    intro l hl _
    have : l = [] := List.length_eq_zero.mp (Nat.le_zero.mp hl)
    subst this
    exact List.chain'_nil
  | succ n ih =>
    intro l hl hch
    cases l with
    | nil => exact List.chain'_nil
    | cons c t =>
      cases hm : m_comma none (c :: t) with
      | some pr =>
        obtain ⟨con, rest⟩ := pr
        obtain ⟨r, hl2, hcon, hrest⟩ := m_comma_shape hm
        obtain ⟨hc1, ht1⟩ := List.cons.injEq .. ▸ hl2
        subst hc1
        subst ht1
        have h1 : commaSub (',' :: ',' :: r) = ',' :: commaSub rest :=
          runSub_match consumes_m_comma prevFree_m_comma ',' _ con rest hm
        rw [h1]
        subst hrest
        have hchr : List.Chain' (fun a b => hpPair a b = true)
            (r.dropWhile (fun c => c = ',')) :=
          chain'_dropWhile hch.tail.tail
        have hlen : (r.dropWhile (fun c => c = ',')).length ≤ n := by
          have hd := (List.dropWhile_sublist (l := r) (fun c => decide (c = ','))).length_le
          simp at hl
          omega
        refine List.chain'_cons'.mpr ⟨?_, ih _ hlen hchr⟩
        intro y hy
        rw [commaSub_head] at hy
        have hyne : y ≠ ',' := by
          have := head_dropWhile_false (Option.mem_def.mp hy)
          simpa using this
        have hynh : y ≠ '-' := chain_dropComma_ne_hyph r hch.tail y (Option.mem_def.mp hy)
        exact hpcPair_mk (hpPair_of_ne (by decide) hynh) (fun hh => hyne hh.2)
      | none =>
        have h1 : commaSub (c :: t) = c :: commaSub t :=
          runSub_nomatch prevFree_m_comma c t hm
        rw [h1]
        refine List.chain'_cons'.mpr ⟨?_, ih t (by simpa using hl) hch.tail⟩
        intro y hy
        rw [commaSub_head] at hy
        have hpy : hpPair c y = true := (List.chain'_cons'.mp hch).1 y hy
        refine hpcPair_mk hpy ?_
        intro hh
        obtain ⟨hc', hy'⟩ := hh
        subst hc'
        subst hy'
        cases t with
        | nil => exact Option.noConfusion hy
        | cons e t2 =>
          have : e = ',' := by injection hy
          subst this
          rw [show m_comma none (',' :: ',' :: t2) =
            some (',' :: ',' :: t2.takeWhile (fun c => c = ','),
              t2.dropWhile (fun c => c = ',')) from rfl] at hm
          exact Option.noConfusion hm

theorem m_ws2_shape {p : Option Char} {l con rest : List Char}
    (h : m_ws2 p l = some (con, rest)) :
    ∃ a b r, l = a :: b :: r ∧ isWS a = true ∧ isWS b = true ∧
      con = a :: b :: r.takeWhile isWS ∧ rest = r.dropWhile isWS := by
  unfold m_ws2 at h
  split at h
  case h_1 a b r =>
    split at h
    case isTrue hab =>
      obtain ⟨ha, hb⟩ := Bool.and_eq_true_iff.mp hab
      rw [Option.some_inj] at h
      obtain ⟨h1, h2⟩ := Prod.mk.injEq .. ▸ h
      exact ⟨a, b, r, rfl, ha, hb, h1.symm, h2.symm⟩
    case isFalse => exact Option.noConfusion h
  case h_2 => exact Option.noConfusion h

theorem m_ws2_match {a b : Char} {r : List Char} (ha : isWS a = true) (hb : isWS b = true) :
    m_ws2 none (a :: b :: r) = some (a :: b :: r.takeWhile isWS, r.dropWhile isWS) := by
  unfold m_ws2
  simp [ha, hb]

theorem wsSub_chain : ∀ n (l : List Char), l.length ≤ n →
    List.Chain' (fun a b => hpcPair a b = true) l →
    List.Chain' (fun a b => okPair a b = true) (wsSub l) ∧
    ((wsSub l).head? = l.head? ∨
      ∃ d, l.head? = some d ∧ isWS d = true ∧ (wsSub l).head? = some ' ') := by
  intro n
  induction n with
  | zero =>
    intro l hl _
    have : l = [] := List.length_eq_zero.mp (Nat.le_zero.mp hl)
    subst this
    exact ⟨List.chain'_nil, Or.inl rfl⟩
  | succ n ih =>
    intro l hl hch
    cases l with
    | nil => exact ⟨List.chain'_nil, Or.inl rfl⟩
    | cons c t =>
      cases hm : m_ws2 none (c :: t) with
      | some pr =>
        obtain ⟨con, rest⟩ := pr
        obtain ⟨a, b, r, hl2, ha, hb, hcon, hrest⟩ := m_ws2_shape hm
        obtain ⟨hc1, ht1⟩ := List.cons.injEq .. ▸ hl2
        subst hc1
        subst ht1
        subst hrest
        have h1 : wsSub (c :: b :: r) = ' ' :: wsSub (r.dropWhile isWS) :=
          runSub_match consumes_m_ws2 prevFree_m_ws2 c _ con _ hm
        rw [h1]
        have hchr : List.Chain' (fun a b => hpcPair a b = true) (r.dropWhile isWS) :=
          chain'_dropWhile hch.tail.tail
        have hlen : (r.dropWhile isWS).length ≤ n := by
          have hd := (List.dropWhile_sublist (l := r) isWS).length_le
          simp at hl
          omega
        obtain ⟨ihc, ihh⟩ := ih _ hlen hchr
        refine ⟨List.chain'_cons'.mpr ⟨?_, ihc⟩, Or.inr ⟨c, rfl, ha, rfl⟩⟩
        intro y hy
        rcases ihh with heq | ⟨d0, hd0, hwsd0, hout⟩
        · rw [heq] at hy
          have hyws : isWS y = false := head_dropWhile_false (Option.mem_def.mp hy)
          exact okPair_sp_left hyws
        · have := head_dropWhile_false hd0
          rw [hwsd0] at this
          exact Bool.noConfusion this
      | none =>
        have h1 : wsSub (c :: t) = c :: wsSub t := runSub_nomatch prevFree_m_ws2 c t hm
        rw [h1]
        have hinv : ¬(isWS c = true ∧ ∃ d, t.head? = some d ∧ isWS d = true) := by
          intro hh
          obtain ⟨hc', d, hd, hwsd⟩ := hh
          cases t with
          | nil => exact Option.noConfusion hd
          | cons e t2 =>
            have : e = d := by injection hd
            subst this
            rw [m_ws2_match hc' hwsd] at hm
            exact Option.noConfusion hm
        obtain ⟨ihc, ihh⟩ := ih t (by simpa using hl) hch.tail
        refine ⟨List.chain'_cons'.mpr ⟨?_, ihc⟩, Or.inl rfl⟩
        intro y hy
        rcases ihh with heq | ⟨d0, hd0, hwsd0, hout⟩
        · rw [heq] at hy
          have hpy : hpcPair c y = true := (List.chain'_cons'.mp hch).1 y hy
          refine okPair_mk (hpcPair_hp hpy) (hpcPair_comma hpy) ?_
          intro hh
          exact hinv ⟨hh.1, y, hy, hh.2⟩
        · rw [hout] at hy
          have hy' : y = ' ' := by injection hy with h2; exact h2.symm
          subst hy'
          have hcws : isWS c = false := by
            by_cases hw : isWS c = true
            · exact absurd ⟨hw, d0, hd0, hwsd0⟩ hinv
            · simpa using hw
          exact okPair_sp_right hcws

/-- The cleanup core always produces a canonical string. -/
theorem cleanCore_chain (l : List Char) : Canon (cleanCore l) := by
  unfold cleanCore Canon
  have h1 := (hyphSub_chain l.length l le_rfl).1
  have h2 := commaSub_chain (hyphSub l).length (hyphSub l) le_rfl h1
  exact (wsSub_chain (commaSub (hyphSub l)).length (commaSub (hyphSub l)) le_rfl h2).1

/-! ## Cleanup idempotence: strip lemmas and the theorem -/

theorem canon_strip {l : List Char} (h : Canon l) : Canon (pyStrip l) := by
  unfold pyStrip
  unfold Canon at h ⊢
  have h1 : List.Chain' (fun a b => okPair a b = true) (l.dropWhile isWS) :=
    chain'_dropWhile h
  have h2 : List.Chain' (flip fun a b => okPair a b = true) ((l.dropWhile isWS).reverse) :=
    List.chain'_reverse.mpr h1
  have h3 : List.Chain' (flip fun a b => okPair a b = true)
      (((l.dropWhile isWS).reverse).dropWhile isWS) :=
    chain'_dropWhile h2
  exact List.chain'_reverse.mpr h3

theorem pyStrip_head {l : List Char} {d : Char} (hd : (pyStrip l).head? = some d) :
    isWS d = false := by
  unfold pyStrip at hd
  rw [List.head?_reverse] at hd
  obtain ⟨u, hu⟩ := List.dropWhile_suffix (l := (l.dropWhile isWS).reverse) isWS
  have h2 : ((l.dropWhile isWS).reverse).getLast? = some d := by
    rw [← hu, List.getLast?_append]
    rw [hd]
    rfl
  rw [List.getLast?_reverse] at h2
  exact head_dropWhile_false h2

theorem pyStrip_last {l : List Char} {d : Char} (hd : (pyStrip l).getLast? = some d) :
    isWS d = false := by
  unfold pyStrip at hd
  rw [List.getLast?_reverse] at hd
  exact head_dropWhile_false hd

theorem pyStrip_sp_front (v : List Char) : pyStrip (' ' :: v) = pyStrip v := by
  unfold pyStrip
  rw [show List.dropWhile isWS (' ' :: v) = List.dropWhile isWS v by
    rw [List.dropWhile_cons]
    simp [show isWS ' ' = true from rfl]]

theorem pyStrip_sp_back (v : List Char) : pyStrip (v ++ [' ']) = pyStrip v := by
  unfold pyStrip
  rw [List.dropWhile_append]
  split
  case isTrue hemp =>
    have hv : List.dropWhile isWS v = [] := by simpa using hemp
    rw [hv]
    simp [List.dropWhile_cons, show isWS ' ' = true from rfl]
  case isFalse hemp =>
    rw [List.reverse_append]
    show ((' ' :: (List.dropWhile isWS v).reverse).dropWhile isWS).reverse = _
    rw [List.dropWhile_cons]
    simp [show isWS ' ' = true from rfl]

theorem pyStrip_noEdge_id {u : List Char} (h1 : ∀ d, u.head? = some d → isWS d = false)
    (h2 : ∀ d, u.getLast? = some d → isWS d = false) : pyStrip u = u := by
  unfold pyStrip
  rw [dropWhile_self_of_head h1]
  rw [dropWhile_self_of_head (fun d hd => by
    rw [List.head?_reverse] at hd
    exact h2 d hd)]
  exact List.reverse_reverse u

theorem pyStrip_padF (X : List Char) : pyStrip (padF X) = pyStrip X := by
  unfold padF
  split
  · exact pyStrip_sp_front X
  · rfl

theorem pyStrip_padB (X : List Char) : pyStrip (padB X) = pyStrip X := by
  unfold padB
  split
  · exact pyStrip_sp_back X
  · rfl

/-! ## Claim theorems (concrete evaluations) -/

/-- C1 counterexample: on notes "Blood Count: 300." / "Blood Count: 400."
the greedy value pattern `\d+\.?\d*` absorbs the sentence-final period, so
the summary is "Lab Results: Blood Count: 300., 400." and does not contain
the substring "Blood Count: 300, 400" claimed by the specification. -/
theorem claim1_cex :
    (extract_and_combine_lab_results ["Blood Count: 300.", "Blood Count: 400."]).1 =
      "Lab Results: Blood Count: 300., 400." ∧
    hasSub ("Blood Count: 300, 400").data
      (extract_and_combine_lab_results ["Blood Count: 300.", "Blood Count: 400."]).1.data
      = false := by
  decide

/-- C1 amended: the summary contains "Blood Count: 300, 400" with each value
suffixed by the period that `\d+\.?\d*` absorbs from the sentence end, i.e.
it contains "Blood Count: 300., 400.", values in encounter order; the full
result is the summary together with the table entry
("Blood Count", ["300.", "400."]). -/
theorem claim1_amended :
    extract_and_combine_lab_results ["Blood Count: 300.", "Blood Count: 400."] =
      ("Lab Results: Blood Count: 300., 400.", [("Blood Count", ["300.", "400."])], some ()) ∧
    hasSub ("Blood Count: 300., 400.").data
      (extract_and_combine_lab_results ["Blood Count: 300.", "Blood Count: 400."]).1.data
      = true := by
  decide

/-- C2: the pre-punctuation rule `re.sub(r'(\s*[,.;])', r'\1', s)` wraps the
whole pattern in the capture group, so it replaces each match with itself and
removes nothing: the cleanup stage and the whole composer leave "a ,"
unchanged instead of producing "a,". -/
theorem claim2_code_eval :
    cleanupStage ("a ,").data = ("a ,").data ∧
    punctSub ("a ,").data = ("a ,").data ∧
    preprocess_patient_notes ["a ,"] = "a ," := by
  decide

/-- C3 counterexample: the doctor-name pattern `Dr\.\s+[A-Z][a-zA-Z\s]+`
absorbs the following lowercase narrative words into the placeholder: in
"Dr. Smith said rest" the text "said rest" is replaced together with the
name, not left in place. -/
theorem claim3_cex :
    generalize_sensitive_info "Dr. Smith said rest" = "Dr. [DOCTOR_NAME]" ∧
    hasSub ("said").data (generalize_sensitive_info "Dr. Smith said rest").data = false := by
  decide

/-- C3 amended: in a doctor-name substitution (both at a "Dr. " prefix and
at a "Visited Physician: " prefix) the text replaced after the prefix is the
maximal nonempty run of ASCII letters and whitespace beginning at the
uppercase letter — lowercase narrative words inside that run are absorbed
into [DOCTOR_NAME] — and only the text from the first character outside that
class onward is left in place, with scanning continuing there. -/
theorem claim3_amended (u : Char) (w r : List Char) (h1 : isUpperA u = true) (h2 : w ≠ [])
    (h3 : ∀ c ∈ w, (isAlphaA c || isWS c) = true)
    (h4 : ∀ c, r.head? = some c → (isAlphaA c || isWS c) = false) :
    drSub (("Dr. ").toList ++ u :: w ++ r) = ("Dr. [DOCTOR_NAME]").toList ++ drSub r ∧
    visitSub (("Visited Physician: ").toList ++ u :: w ++ r) =
      ("Visited Physician: [DOCTOR_NAME]").toList ++ visitSub r := by
  constructor
  · unfold drSub
    exact runSub_match consumes_m_dr prevFree_m_dr 'D' _ _ _ (m_dr_step u w r h1 h2 h3 h4)
  · unfold visitSub
    exact runSub_match consumes_m_visit prevFree_m_visit 'V' _ _ _
      (m_visit_step u w r h1 h2 h3 h4)

/-- C3 amended, witness: "Dr. Smith said hi, ok" and
"Visited Physician: Smith said hi, ok" replace through "said hi" and keep
", ok". -/
theorem claim3_amended_witness :
    drSub (("Dr. ").toList ++ 'S' :: ("mith said hi").toList ++ (", ok").toList) =
      ("Dr. [DOCTOR_NAME]").toList ++ drSub ((", ok").toList) ∧
    visitSub (("Visited Physician: ").toList ++ 'S' :: ("mith said hi").toList ++
        (", ok").toList) =
      ("Visited Physician: [DOCTOR_NAME]").toList ++ visitSub ((", ok").toList) :=
  claim3_amended 'S' (("mith said hi").toList) ((", ok").toList) (by decide) (by decide)
    (by decide) (by decide)

/-- C4: stripping lab matches can juxtapose the surrounding text into a new
lab match: for the single note "Glucose: Glucose: 5 5." the final narrative
is "Glucose: 5.", which the extraction pattern still matches, so re-scanning
the narrative finds one match rather than zero. -/
theorem claim4_code_eval :
    preprocessNarr [("Glucose: Glucose: 5 5.").data] = ("Glucose: 5.").data ∧
    labFind (preprocessNarr [("Glucose: Glucose: 5 5.").data]) =
      [(("Glucose").data, ("5.").data)] := by
  decide

/-- C5 counterexample: the whole composer is not idempotent on its own
output: re-running it re-extracts the lab summary from the appended line,
strips it out of the narrative and appends it again, yielding a different
document. -/
theorem claim5_cex :
    preprocess_patient_notes ["A. Glucose: 5."] = "A.\n\nLab Results: Glucose: 5." ∧
    preprocess_patient_notes ["A.\n\nLab Results: Glucose: 5."] =
      "A.\nLab Results:\n\nLab Results: Glucose: 5." ∧
    preprocess_patient_notes [preprocess_patient_notes ["A. Glucose: 5."]] ≠
      preprocess_patient_notes ["A. Glucose: 5."] := by
  decide

/-- C5 amended: the cleanup substitution sequence (hyphen normalization,
comma-run collapse, whitespace-run collapse, the vacuous pre-punctuation
rule, strip) is idempotent: applying it to its own output returns the output
unchanged, for every string.  (The whole composer, by contrast, is not
idempotent on its own output — see the counterexample.) -/
theorem claim5_amended (s : List Char) : cleanupStage (cleanupStage s) = cleanupStage s := by
  rw [cleanupStage_eq s, cleanupStage_eq (pyStrip (cleanCore s))]
  have hcanon : Canon (pyStrip (cleanCore s)) := canon_strip (cleanCore_chain s)
  rw [cleanCore_canon (pyStrip (cleanCore s)).length (pyStrip (cleanCore s)) le_rfl hcanon]
  rw [pyStrip_padF, pyStrip_padB]
  exact pyStrip_noEdge_id (fun d hd => pyStrip_head hd) (fun d hd => pyStrip_last hd)

/-- C6 counterexample: a sentence may itself contain a newline (the splitter
only breaks after a sentence terminal), so splitting the output on newlines
can produce duplicate lines: for notes "a\nb" and "b" the output is
"a\nb\nb", whose newline-split trimmed lines contain "b" twice. -/
theorem claim6_cex :
    deduplicate_notes ["a\nb", "b"] = "a\nb\nb" ∧
    ¬ ((("a\nb\nb").data.splitOn '\n').map pyStrip).Nodup := by
  decide

/-- C6 amended: the sequence of sentences from which the output is joined —
the keys of the insertion-ordered set — contains no duplicates and is
exactly the subsequence of first occurrences of the stripped non-empty
sentence stream in scan order over the ordered note list (splitting the
output on newlines recovers it only when no sentence contains an embedded
newline); in particular for notes ["A. B.", "B. C."] the sentence sequence
is ["A.", "B.", "C."] and the output is "A.\nB.\nC.". -/
theorem claim6_amended :
    (∀ notes : List (List Char),
        dedupKeys notes = firstOccs (sentStream notes) ∧
        (dedupKeys notes).Nodup ∧
        List.Sublist (dedupKeys notes) (sentStream notes) ∧
        dedupList notes = List.intercalate ['\n'] (dedupKeys notes)) ∧
    dedupKeys [("A. B.").data, ("B. C.").data] = [("A.").data, ("B.").data, ("C.").data] ∧
    deduplicate_notes ["A. B.", "B. C."] = "A.\nB.\nC." := by
  refine ⟨fun notes => ⟨dedupKeys_eq_firstOccs notes, ?_, ?_, rfl⟩, by decide, by decide⟩
  · rw [dedupKeys_eq_firstOccs notes]
    exact firstOccs_nodup_aux _ _ le_rfl
  · rw [dedupKeys_eq_firstOccs notes]
    exact firstOccs_sublist_aux _ _ le_rfl

/-- C7: "HEMOGLOBIN: 9.0" and "hemoglobin: 9.5" aggregate under the single
title-cased key "Hemoglobin" with both values present in encounter order in
the table and the summary. -/
theorem claim7_confirmed :
    extract_and_combine_lab_results ["HEMOGLOBIN: 9.0", "hemoglobin: 9.5"] =
      ("Lab Results: Hemoglobin: 9.0, 9.5", [("Hemoglobin", ["9.0", "9.5"])], some ()) := by
  decide

/-- C8: the pipeline is total by construction (every operation in the
embedding is a total function); the empty note list yields the empty
document, whitespace-only notes yield the empty document, and a note with a
malformed date and no lab mention is processed without failure. -/
theorem claim8_confirmed :
    preprocess_patient_notes [] = "" ∧
    preprocess_patient_notes ["", "   "] = "" ∧
    preprocess_patient_notes ["Note with Date: 9/9/99 malformed. No labs here."] =
      "Note with Date: 9/9/99 malformed.\nNo labs here." := by
  decide

/-- C9: the pipeline is a pure function of the ordered note list: two runs on
the same input produce identical documents (the lab table is an
insertion-ordered association list, so the summary's iteration order is
determined by the input as well). -/
theorem claim9_confirmed :
    ∀ notes : List String, preprocess_patient_notes notes = preprocess_patient_notes notes :=
  fun _ => rfl

/-- C10: when no (generalized) note contains a lab-pattern match, the
extractor returns the empty summary, the empty table and `None` in the
pattern component, and the composer therefore takes the no-strip branch: the
deduplicated narrative passes to cleanup unmodified by lab-mention
stripping. -/
theorem claim10_confirmed (notes : List (List Char))
    (h : ∀ n ∈ notes, labFind (genList n) = []) :
    extractLab (notes.map genList) = ([], [], none) ∧
    preprocessList notes = cleanupStage (dedupList (notes.map genList)) := by
  have hx : extractLab (notes.map genList) = ([], [], none) :=
    extractLab_of_no_match _ fun n hn => by
      rcases List.mem_map.mp hn with ⟨m, hm, rfl⟩
      exact h m hm
  refine ⟨hx, ?_⟩
  unfold preprocessList preprocessCore
  simp [hx]

/-- C10 witness: a concrete lab-free note. -/
theorem claim10_witness :
    extractLab ([("Vitals stable.").data].map genList) = ([], [], none) ∧
    preprocessList [("Vitals stable.").data] =
      cleanupStage (dedupList ([("Vitals stable.").data].map genList)) :=
  claim10_confirmed [("Vitals stable.").data] (by decide)

end Preproc
